import Mathlib

/-!
Verification of the binding-placeholder language and its resolution pipeline of
the `laziest` command-alias manager (Go), against its natural-language
specification.

Go strings are modelled as `List Char` (`Str`).  The repository's placeholder
grammar and all inputs appearing in the claims are ASCII, where Go's byte
indices and rune indices coincide; index-carrying definitions note this where
it matters.  Fallible Go functions returning `(T, error)` are modelled as
`Except Str T`.  The only I/O the modelled core performs is home-directory and
absolute-path resolution inside the binding parser (`os.UserHomeDir`,
`filepath.Abs`); that operating-system step is abstracted as an explicit
`resolvePath : Str → Str` parameter applied exactly where the source rewrites
the parsed path, and theorems quantify over it.
-/

/-- Go strings, modelled as lists of characters. -/
abbrev Str := List Char

/-- Convenience conversion from Lean string literals to `Str`. -/
def str (s : String) : Str := s.data

namespace laziest

/-- Character class of Go's regexp `\s` (used by the `\s+` collapse in
`RemoveWithFlag` and the `\s*` in the flag-prefix pattern):
space, tab, newline, form feed, carriage return. -/
def isRegexSpace (c : Char) : Bool :=
  c = ' ' || c = '\t' || c = '\n' || c = '\x0c' || c = '\r'

/-- Characters stripped by Go's `strings.TrimSpace` (`unicode.IsSpace`,
restricted to the Latin-1 range: space, tab, newline, vertical tab, form
feed, carriage return, NEL U+0085, NBSP U+00A0). -/
def isGoSpace (c : Char) : Bool :=
  c = ' ' || c = '\t' || c = '\n' || c = '\x0b' || c = '\x0c' || c = '\r' ||
  c = Char.ofNat 0x85 || c = Char.ofNat 0xA0

/-- Go `strings.TrimSpace`. -/
def trimSpace (s : Str) : Str :=
  ((s.dropWhile isGoSpace).reverse.dropWhile isGoSpace).reverse

/-- Worker for `collapseWs`: the Boolean records whether the previous kept
character came from a whitespace run. -/
def collapseWsGo : Bool → Str → Str
  | _, [] => []
  | prevSpace, c :: rest =>
    if isRegexSpace c then
      if prevSpace then collapseWsGo true rest
      else ' ' :: collapseWsGo true rest
    else c :: collapseWsGo false rest

/-- Go `regexp.MustCompile("\\s+").ReplaceAllString(s, " ")`: every maximal
run of regexp whitespace becomes a single space. -/
def collapseWs (s : Str) : Str := collapseWsGo false s

/-- The whitespace normalization both removal paths of `RemoveWithFlag`
apply: collapse `\s+` runs to one space, then `strings.TrimSpace`. -/
def normalizeWs (s : Str) : Str := trimSpace (collapseWs s)

/-- Boolean list-prefix test (Go `strings.HasPrefix`). -/
def isPrefixB : Str → Str → Bool
  | [], _ => true
  | _ :: _, [] => false
  | a :: as, b :: bs => a = b && isPrefixB as bs

/-- Boolean list-suffix test (Go `strings.HasSuffix`). -/
def isSuffixB (pat s : Str) : Bool := isPrefixB pat.reverse s.reverse

/-- Go `strings.Contains s pat` (does `pat` occur as a substring of `s`). -/
def containsSub (pat : Str) : Str → Bool
  | [] => isPrefixB pat []
  | c :: rest => isPrefixB pat (c :: rest) || containsSub pat rest

/-- Worker for `replaceFirst` (non-empty pattern). -/
def replaceFirstGo (pat repl : Str) : Str → Str
  | [] => []
  | c :: rest =>
    if isPrefixB pat (c :: rest) then repl ++ (c :: rest).drop pat.length
    else c :: replaceFirstGo pat repl rest

/-- Go `strings.Replace(s, pat, repl, 1)`: replace the first occurrence of
`pat` (an empty pattern matches at the start, as in Go). -/
def replaceFirst (s pat repl : Str) : Str :=
  if pat = [] then repl ++ s else replaceFirstGo pat repl s

/-- Go `strings.Split(s, ",")` worker, accumulating the current field in
reverse. -/
def splitCommaGo : Str → Str → List Str
  | acc, [] => [acc.reverse]
  | acc, c :: rest =>
    if c = ',' then acc.reverse :: splitCommaGo [] rest
    else splitCommaGo (c :: acc) rest

/-- Go `strings.Split(s, ",")`. -/
def splitComma (s : Str) : List Str := splitCommaGo [] s

/-- Go `strings.LastIndex(s, ":")` generalized to one character: the index of
the last occurrence of `c`, or `-1` (char index; equal to Go's byte index on
ASCII input). -/
def lastIndexOfGo (c : Char) : Str → Int
  | [] => -1
  | a :: rest =>
    let r := lastIndexOfGo c rest
    if r ≥ 0 then r + 1
    else if a = c then 0 else -1

/-- Go `strings.Join(xs, " ")`. -/
def joinSpace : List Str → Str
  | [] => []
  | [x] => x
  | x :: xs => x ++ [' '] ++ joinSpace xs

/-- Go `strings.Join(xs, ",")`. -/
def joinComma : List Str → Str
  | [] => []
  | [x] => x
  | x :: xs => x ++ [','] ++ joinComma xs

end laziest

namespace laziest.binding

open laziest

/-- The binding type discriminant of `internal/binding`.  The first two
constructors are the enum of `src/internal/binding/binding.go` (lines 12-18).
`BindingBooleanFlag` is referenced by `src/cmd/laziest/main.go` (lines 509,
945) and by the repository's README (the `\x7b%?--verbose%\x7d` optional
boolean flag), but its defining revision of `binding.go` is not in the
source snapshot; it is included here as the third arm of the tagged union
the specification describes. -/
inductive BindingType where
  | BindingDirectory
  | BindingValues
  | BindingBooleanFlag
deriving DecidableEq, Repr

export BindingType (BindingDirectory BindingValues BindingBooleanFlag)

/-- The `Binding` struct of `internal/binding` (one struct with a type
discriminant, as in the source). -/
structure Binding where
  btype : BindingType
  path : Str := []
  filter : Str := []
  values : List Str := []
  placeholder : Str := []
  optional : Bool := false
  flag : Str := []
  allowCustom : Bool := false
deriving DecidableEq, Repr

/-- Character class of Go's regexp `[\w-]` (ASCII word characters plus
dash), used by the flag-prefix pattern. -/
def isWordDash (c : Char) : Bool :=
  ('0' ≤ c && c ≤ '9') || ('a' ≤ c && c ≤ 'z') || ('A' ≤ c && c ≤ 'Z') ||
  c = '_' || c = '-'

/-- One alternative of the flag-prefix match: a fixed dash prefix, then a
maximal non-empty `[\w-]+` run, then a literal `:`, then `\s*` consumed. -/
def flagPfxAt (dashes s : Str) : Option (Str × Str) :=
  if isPrefixB dashes s then
    let afterDash := s.drop dashes.length
    let w := afterDash.takeWhile isWordDash
    match afterDash.dropWhile isWordDash with
    | ':' :: tail =>
      if w = [] then none else some (dashes ++ w, tail.dropWhile isRegexSpace)
    | _ => none
  else none

/-- Go `regexp.MustCompile("^(-\x7b1,2\x7d[\\w-]+):\\s*").FindStringSubmatch`:
returns the captured flag and the content after the matched prefix.  The
regexp prefers two dashes and backtracks to one; because `:` is not in
`[\w-]`, the `[\w-]+` run is forced to be the maximal run in both
alternatives, so trying the two-dash alternative first and then the one-dash
alternative is exactly the regexp's behaviour (they differ only on inputs
such as `--:`, where the two-dash run is empty but the one-dash run is
`-`). -/
def matchFlagPfx (s : Str) : Option (Str × Str) :=
  (flagPfxAt (str "--") s).orElse (fun _ => flagPfxAt (str "-") s)

/-- The value-collecting loop of `parseContent`: walks the comma-split,
trimmed items in order; `...` sets the custom marker and is dropped, an
empty item is an error, anything else is kept in order. -/
def collectValues : List Str → Except Unit (List Str × Bool)
  | [] => .ok ([], false)
  | v :: rest =>
    if v = str "..." then
      match collectValues rest with
      | .error e => .error e
      | .ok (vs, _) => .ok (vs, true)
    else if v = [] then .error ()
    else
      match collectValues rest with
      | .error e => .error e
      | .ok (vs, custom) => .ok (v :: vs, custom)

/-- The body of `parseContent` after the optional marker and flag prefix
have been stripped: a `[...]` body is a value binding, anything else is a
directory binding split at the last colon (when its index exceeds 1, the
Windows drive-letter guard).  `resolvePath` abstracts the home-directory
expansion and `filepath.Abs` resolution the source applies to the parsed
path (operating-system I/O). -/
def parseBody (resolvePath : Str → Str) (ph : Str) (optional : Bool)
    (flag : Str) (content : Str) : Except Str Binding :=
  if isPrefixB (str "[") content && isSuffixB (str "]") content then
    let inner := (content.drop 1).dropLast
    if inner = [] then .error (str "value binding cannot be empty: " ++ ph)
    else
      match collectValues ((splitComma inner).map trimSpace) with
      | .error _ => .error (str "value binding contains empty value: " ++ ph)
      | .ok (filtered, allowCustom) =>
        if filtered = [] && !allowCustom then
          .error (str "value binding cannot be empty: " ++ ph)
        else
          .ok { btype := BindingValues, values := filtered, placeholder := ph,
                optional := optional, flag := flag, allowCustom := allowCustom }
  else
    let lastColon := lastIndexOfGo ':' content
    let path := if lastColon > 1 then content.take lastColon.toNat else content
    let filter := if lastColon > 1 then content.drop (lastColon.toNat + 1) else []
    .ok { btype := BindingDirectory, path := resolvePath path, filter := filter,
          placeholder := ph, optional := optional, flag := flag }

/-- The preamble of `parseContent`: trim, reject empty content, strip a
leading `?` (setting the optional marker) and reject content that is empty
after it. -/
def parsePre (content0 ph : Str) : Except Str (Bool × Str) :=
  let content := trimSpace content0
  if content = [] then .error (str "empty binding: " ++ ph)
  else if isPrefixB (str "?") content then
    let c2 := trimSpace (content.drop 1)
    if c2 = [] then .error (str "empty binding after ?: " ++ ph)
    else .ok (true, c2)
  else .ok (false, content)

/-- The flag-prefix stage shared by both parser versions: on a flag-prefix
match the remaining content is trimmed and must be non-empty. -/
def parseAfterFlag (resolvePath : Str → Str) (ph : Str) (optional : Bool)
    (content : Str) : Except Str Binding :=
  match matchFlagPfx content with
  | some (flag, rest) =>
    let c2 := trimSpace rest
    if c2 = [] then .error (str "empty binding after flag: " ++ ph)
    else parseBody resolvePath ph optional flag c2
  | none => parseBody resolvePath ph optional [] content

/-- `parseContent` of `src/internal/binding/binding.go` (lines 62-168),
exactly as in the snapshot: no boolean-flag arm. -/
def parseContent (resolvePath : Str → Str) (content0 ph : Str) :
    Except Str Binding :=
  match parsePre content0 ph with
  | .error e => .error e
  | .ok (optional, content) => parseAfterFlag resolvePath ph optional content

/-- Does a string match the shape of one whole flag token,
`^-\x7b1,2\x7d[\w-]+$`?  Because `[\w-]` contains `-`, this is: starts with a
dash, length at least two, all characters word-or-dash. -/
def isBareFlag (s : Str) : Bool :=
  isPrefixB (str "-") s && decide (2 ≤ s.length) && s.all isWordDash

/-- Modelled from the spec: the current `parseContent` including the
boolean-flag arm.  The revision of `binding.go` defining
`BindingBooleanFlag` is missing from the snapshot (only its caller
`main.go` and the README documenting `\x7b%?--verbose%\x7d` are present); per
the specification, a placeholder whose content is only a flag, optionally
preceded by `?`, is a `BooleanFlag` binding carrying that flag and the
optional marker and no directory or value payload.  All other content is
parsed exactly as in the snapshot's `parseContent`. -/
def parseContentCur (resolvePath : Str → Str) (content0 ph : Str) :
    Except Str Binding :=
  match parsePre content0 ph with
  | .error e => .error e
  | .ok (optional, content) =>
    if isBareFlag content then
      .ok { btype := BindingBooleanFlag, flag := content, placeholder := ph,
            optional := optional }
    else parseAfterFlag resolvePath ph optional content

/-- Worker for the matcher of `bindingPattern = \\\x7b%(.+?)%\\\x7d`: from the
position just after an opening `\x7b%`, find the minimal non-empty run of
non-newline characters followed by `%\x7d` (Go's `.` does not match newline,
and the lazy `+?` takes the shortest content).  Returns the content and the
remainder after the closing `%\x7d`. -/
def findClose : Str → Option (Str × Str)
  | [] => none
  | c :: rest =>
    if c = '%' && isPrefixB (str "\x7d") rest then some ([], rest.drop 1)
    else if c = '\n' then none
    else (findClose rest).map (fun pr => (c :: pr.1, pr.2))

/-- The content scan after `\x7b%`: at least one content character, none of
them a newline, up to the first `%\x7d`. -/
def scanClose : Str → Option (Str × Str)
  | [] => none
  | c :: rest =>
    if c = '\n' then none
    else (findClose rest).map (fun pr => (c :: pr.1, pr.2))

/-- Fuel-bounded scan of `bindingPattern.FindAllStringSubmatchIndex`:
leftmost matches first; a `\x7b%` with no closing `%\x7d` on the same line is
skipped and scanning resumes at the next character, exactly as the regexp
engine advances its starting position.  Returns, in order, each full
placeholder together with its inner content.  Fuel at least the length of
the string makes the result fuel-independent. -/
def findAllAux : Nat → Str → List (Str × Str)
  | 0, _ => []
  | _ + 1, [] => []
  | fuel + 1, c :: rest =>
    if c = '{' && isPrefixB (str "%") rest then
      match scanClose (rest.drop 1) with
      | some (content, after) =>
        (str "\x7b%" ++ content ++ str "%\x7d", content) :: findAllAux fuel after
      | none => findAllAux fuel rest
    else findAllAux fuel rest

/-- All placeholder matches of `bindingPattern` in a command, leftmost
first, each as (full placeholder, inner content). -/
def findAll (s : Str) : List (Str × Str) := findAllAux s.length s

/-- The per-match loop of `Parse`: parse each content in order, aborting at
the first error.  Parameterized by the content parser so that the snapshot
parser and the spec-modelled current parser share it. -/
def parseEach (pc : (Str → Str) → Str → Str → Except Str Binding)
    (resolvePath : Str → Str) : List (Str × Str) → Except Str (List Binding)
  | [] => .ok []
  | (ph, content) :: rest =>
    match pc resolvePath content ph with
    | .error e => .error e
    | .ok b =>
      match parseEach pc resolvePath rest with
      | .error e => .error e
      | .ok bs => .ok (b :: bs)

/-- `binding.Parse` of the snapshot: extract all placeholders and parse each
content with the snapshot's `parseContent`; no matches yields the empty list
and no error. -/
def Parse (resolvePath : Str → Str) (command : Str) :
    Except Str (List Binding) :=
  parseEach parseContent resolvePath (findAll command)

/-- `binding.Parse` with the spec-modelled current content parser (the one
`main.go` links against). -/
def ParseCur (resolvePath : Str → Str) (command : Str) :
    Except Str (List Binding) :=
  parseEach parseContentCur resolvePath (findAll command)

/-- `binding.Resolve` (binding.go lines 263-271): replace the first
occurrence of the placeholder with the value, prefixed by `flag ++ " "` when
the binding carries a flag.  Note: no whitespace collapsing or trimming. -/
def Resolve (command : Str) (b : Binding) (value : Str) : Str :=
  let replacement := if b.flag = [] then value else b.flag ++ [' '] ++ value
  replaceFirst command b.placeholder replacement

/-- `binding.HasBindings` (binding.go lines 273-276):
`strings.Contains(command, "\x7b%")`. -/
def HasBindings (command : Str) : Bool := containsSub (str "\x7b%") command

/-- One attempt of the `RemoveWithFlag` regexp
`QuoteMeta(flag) ++ \s*=?\s* ++ QuoteMeta(placeholder)` at the head of `s`:
the flag literally, a greedy whitespace run, an optional `=`, a greedy
whitespace run, then the placeholder literally.  Greedy matching here is
deterministic because a placeholder (always of the form `\x7b%...%\x7d`)
cannot begin with a whitespace or `=` character, so no backtracking point
exists. -/
def eatEq (s1 : Str) : Str :=
  if isPrefixB (str "=") s1 then (s1.drop 1).dropWhile isRegexSpace else s1

def tryPat (flag ph s : Str) : Option Str :=
  if isPrefixB flag s then
    if isPrefixB ph (eatEq ((s.drop flag.length).dropWhile isRegexSpace)) then
      some ((eatEq ((s.drop flag.length).dropWhile isRegexSpace)).drop ph.length)
    else none
  else none

/-- `re.MatchString` for the `RemoveWithFlag` pattern: does it match at some
position? -/
def containsPat (flag ph : Str) : Str → Bool
  | [] => (tryPat flag ph []).isSome
  | c :: rest => (tryPat flag ph (c :: rest)).isSome || containsPat flag ph rest

/-- Fuel-bounded `re.ReplaceAllString(command, "")` for the `RemoveWithFlag`
pattern: scan left to right, delete each match and resume after it.  The
progress guard is never taken for the non-empty flags `RemoveWithFlag`
passes; it only makes the recursion manifestly total. -/
def removeAllAux (flag ph : Str) : Nat → Str → Str
  | 0, s => s
  | _ + 1, [] => []
  | fuel + 1, c :: rest =>
    match tryPat flag ph (c :: rest) with
    | some after =>
      if after.length < rest.length + 1 then removeAllAux flag ph fuel after
      else c :: removeAllAux flag ph fuel rest
    | none => c :: removeAllAux flag ph fuel rest

/-- `re.ReplaceAllString(command, "")` for the `RemoveWithFlag` pattern. -/
def removeAllPat (flag ph s : Str) : Str := removeAllAux flag ph s.length s

/-- `binding.RemoveWithFlag` (binding.go lines 321-344): with a flag whose
`flag[\s*=?\s*]placeholder` pattern occurs in the command, delete every such
occurrence; otherwise delete the first occurrence of the placeholder alone;
either way collapse whitespace runs and trim. -/
def RemoveWithFlag (command : Str) (b : Binding) : Str :=
  if !b.flag.isEmpty && containsPat b.flag b.placeholder command then
    normalizeWs (removeAllPat b.flag b.placeholder command)
  else
    normalizeWs (replaceFirst command b.placeholder [])

end laziest.binding

namespace laziest.flagparse

open laziest

/-- A token of `flagparse.tokenize` with its start and (exclusive) end index.
Go tracks byte indices; the model counts characters, which coincides on
ASCII commands such as all commands in the claims. -/
structure token where
  value : Str
  startIdx : Nat
  endIdx : Nat
deriving DecidableEq, Repr

/-- Worker for `tokenize`: current position and, while inside a token, its
start index with the characters read so far (reversed). -/
def tokenizeAux : Str → Nat → Option (Nat × Str) → List token
  | [], _, none => []
  | [], n, some (st, acc) => [⟨acc.reverse, st, n⟩]
  | c :: rest, i, cur =>
    if c = ' ' || c = '\t' then
      match cur with
      | some (st, acc) => ⟨acc.reverse, st, i⟩ :: tokenizeAux rest (i + 1) none
      | none => tokenizeAux rest (i + 1) none
    else
      match cur with
      | some (st, acc) => tokenizeAux rest (i + 1) (some (st, c :: acc))
      | none => tokenizeAux rest (i + 1) (some (i, [c]))

/-- `flagparse.tokenize`: split on spaces and tabs, tracking positions; no
quote awareness. -/
def tokenize (command : Str) : List token := tokenizeAux command 0 none

/-- `flagparse.isFlag`: a token is a flag iff it starts with `-`. -/
def isFlag (s : Str) : Bool := isPrefixB (str "-") s

/-- `flagparse.isBooleanValue`: the lowercased value is `true` or `false`
(`strings.ToLower`; ASCII here). -/
def isBooleanValue (s : Str) : Bool :=
  let lower := s.map Char.toLower
  lower = str "true" || lower = str "false"

/-- The `Flag` struct of `flagparse` (src/unnamed/part_002). -/
structure Flag where
  name : Str
  value : Str := []
  isBoolean : Bool := false
  startIdx : Nat := 0
  endIdx : Nat := 0
deriving DecidableEq, Repr

/-- The scanning loop of `flagparse.Parse`: on a flag token, consume the
next token as its value iff that token exists and is not itself a flag;
non-flag tokens before the first flag accumulate into the base command;
non-flag tokens after it are dropped. -/
def parseFlagsAux : List token → Bool → Str → List Flag →
    (Bool × Str × List Flag)
  | [], found, base, flags => (found, base, flags.reverse)
  | [t], found, base, flags =>
    if isFlag t.value then
      (true, base, (flags.reverse) ++ [⟨t.value, [], true, t.startIdx, t.endIdx⟩])
    else if !found then
      (found, (if base = [] then t.value else base ++ [' '] ++ t.value), flags.reverse)
    else (found, base, flags.reverse)
  | t :: t2 :: rest, found, base, flags =>
    if isFlag t.value then
      if !isFlag t2.value then
        parseFlagsAux rest true base
          (⟨t.value, t2.value, isBooleanValue t2.value, t.startIdx, t2.endIdx⟩ :: flags)
      else
        parseFlagsAux (t2 :: rest) true base
          (⟨t.value, [], true, t.startIdx, t.endIdx⟩ :: flags)
    else if !found then
      parseFlagsAux (t2 :: rest) found
        (if base = [] then t.value else base ++ [' '] ++ t.value) flags
    else parseFlagsAux (t2 :: rest) found base flags

/-- `flagparse.Parse` (src/unnamed/part_002 lines 16-76): the base command
(tokens before the first flag) and the ordered flag list; a command without
flags is returned unchanged with no flags. -/
def Parse (command : Str) : Str × List Flag :=
  let tokens := tokenize command
  if tokens = [] then (command, [])
  else
    let (found, base, flags) := parseFlagsAux tokens false [] []
    if !found then (command, []) else (trimSpace base, flags)

/-- The segment kind of `flagparse.ParseSegments`. -/
inductive SegmentType where
  | SegmentStatic
  | SegmentFlag
deriving DecidableEq, Repr

/-- The index-free `Flag` of src/unnamed/part_001. -/
structure SegFlag where
  name : Str
  value : Str := []
  isBoolean : Bool := false
deriving DecidableEq, Repr

/-- A segment of `flagparse.ParseSegments`: static text or a flag. -/
structure Segment where
  stype : SegmentType
  static : Str := []
  flag : Option SegFlag := none
deriving DecidableEq, Repr

/-- Flush the accumulated static tokens (kept in reverse) as one static
segment joined with single spaces. -/
def flushStatic (acc : List Str) : List Segment :=
  if acc = [] then []
  else [{ stype := .SegmentStatic, static := joinSpace acc.reverse }]

/-- The scanning loop of `flagparse.ParseSegments`. -/
def segmentsAux : List token → List Str → List Segment
  | [], acc => flushStatic acc
  | [t], acc =>
    if isFlag t.value then
      flushStatic acc ++
        [{ stype := .SegmentFlag, flag := some ⟨t.value, [], true⟩ }]
    else flushStatic (t.value :: acc)
  | t :: t2 :: rest, acc =>
    if isFlag t.value then
      if !isFlag t2.value then
        flushStatic acc ++
          ({ stype := .SegmentFlag,
             flag := some ⟨t.value, t2.value, isBooleanValue t2.value⟩ } :
            Segment) :: segmentsAux rest []
      else
        flushStatic acc ++
          ({ stype := .SegmentFlag, flag := some ⟨t.value, [], true⟩ } :
            Segment) :: segmentsAux (t2 :: rest) []
    else segmentsAux (t2 :: rest) (t.value :: acc)

/-- `flagparse.ParseSegments` (src/unnamed/part_001 lines 29-93): the
command as an ordered list of static and flag segments, preserving the
original relative order of all parts. -/
def ParseSegments (command : Str) : List Segment :=
  segmentsAux (tokenize command) []

end laziest.flagparse

namespace laziest.builder

open laziest

/-- The placeholder `processBooleanFlag` emits for a pure boolean flag made
optional (src/unnamed/part_004 lines 90-96): `\x7b%?flag%\x7d`. -/
def emitOptionalBool (name : Str) : Str :=
  str "\x7b%?" ++ name ++ str "%\x7d"

/-- The placeholder `processBooleanFlag` emits for a True/False-valued flag
made dynamic: `\x7b%flag:[True,False]%\x7d`. -/
def emitDynamicTF (name : Str) : Str :=
  str "\x7b%" ++ name ++ str ":[True,False]%\x7d"

/-- The placeholder `processBooleanFlag` emits for a True/False-valued flag
made optional and dynamic: `\x7b%?flag:[True,False]%\x7d`. -/
def emitOptDynamicTF (name : Str) : Str :=
  str "\x7b%?" ++ name ++ str ":[True,False]%\x7d"

/-- The placeholder `buildDirectoryBinding` emits (src/unnamed/part_004
lines 152-186): `\x7b%[?]flag:baseDir[:filter]%\x7d`, the filter part present
iff the filter is non-empty. -/
def buildDirectoryBinding (optional : Bool) (name baseDir filter : Str) : Str :=
  (if optional then str "\x7b%?" else str "\x7b%") ++ name ++ str ":" ++ baseDir ++
    (if filter ≠ [] then str ":" ++ filter else []) ++ str "%\x7d"

/-- The placeholder `buildValueListBinding` emits (src/unnamed/part_004
lines 188-224): `\x7b%[?]flag:[v1,v2,...]%\x7d` with the entered values joined
by commas. -/
def buildValueListBinding (optional : Bool) (name : Str) (values : List Str) :
    Str :=
  (if optional then str "\x7b%?" else str "\x7b%") ++ name ++ str ":[" ++
    joinComma values ++ str "]%\x7d"

end laziest.builder

namespace laziest.picker

open laziest

/-- The `PickAction` enum of `internal/picker`. -/
inductive PickAction where
  | ActionCancel
  | ActionSelect
  | ActionSelectWithExtra
  | ActionSkip
  | ActionCustom
  | ActionDelete
  | ActionModify
deriving DecidableEq, Repr

/-- The `PickResult` struct of `internal/picker` (fields not relevant to the
modelled paths omitted default to empty). -/
structure PickResult where
  action : PickAction
  value : Str := []
  extra : Str := []
deriving DecidableEq, Repr

/-- The terminal environment a picker invocation runs against: whether
standard input is a terminal, whether `term.MakeRaw` succeeds, and the byte
stream of keypresses (one byte per read). -/
structure TermEnv where
  isTerminal : Bool := true
  makeRawOk : Bool := true
  keys : List Nat := []

/-- Observable side effects of a picker invocation: whether raw terminal
mode was entered and the failure messages written to standard error. -/
structure Effects where
  rawEntered : Bool := false
  stderr : List Str := []
deriving DecidableEq, Repr

/-- The input loop of `picker.PromptInput` (picker.go lines 823-860) over
the modelled key stream: Esc and Ctrl-C cancel to the empty string, Enter
returns the accumulated input, Backspace drops the last character,
printable ASCII appends; an exhausted stream is the loop's read-error path,
which also returns the empty string. -/
def promptLoop : List Nat → Str → Str
  | [], _ => []
  | b :: rest, acc =>
    if b = 27 then []
    else if b = 3 then []
    else if b = 13 || b = 10 then acc
    else if b = 127 then promptLoop rest acc.dropLast
    else if 32 ≤ b && b < 127 then promptLoop rest (acc ++ [Char.ofNat b])
    else promptLoop rest acc

/-- `picker.PromptInput` (picker.go lines 801-860): on a non-terminal input
it reports failure and returns the empty string without raw mode; on a raw
mode failure likewise; otherwise it enters raw mode and runs the input
loop.  The rendering of the prompt text is not modelled. -/
def PromptInput (env : TermEnv) : Str × Effects :=
  if !env.isTerminal then
    ([], { stderr := [str "Cannot show input prompt: not a terminal"] })
  else if !env.makeRawOk then
    ([], { stderr := [str "Failed to enable raw mode"] })
  else (promptLoop env.keys [], { rawEntered := true })

/-- `picker.Pick` (picker.go lines 102-123 model the head; the interactive
Browsing/Filter/ConfirmingDelete loop that runs after raw mode has been
entered is beyond this claim set and is abstracted as the `loop` parameter,
universally quantified in every theorem): zero items return Cancel at once;
a non-terminal input reports failure and returns Cancel; a raw-mode failure
likewise; otherwise raw mode is entered and the loop runs. -/
def Pick (loop : TermEnv → PickResult) (items : List (Str × Str))
    (env : TermEnv) : PickResult × Effects :=
  if items.length = 0 then ({ action := .ActionCancel }, {})
  else if !env.isTerminal then
    ({ action := .ActionCancel },
     { stderr := [str "Cannot show interactive picker: not a terminal"] })
  else if !env.makeRawOk then
    ({ action := .ActionCancel },
     { stderr := [str "Failed to enable raw mode"] })
  else (loop env, { rawEntered := true })

/-- `picker.PickString` (picker.go lines 485-532 model the head; the
interactive loop after raw mode is entered is abstracted as `loop`,
universally quantified in every theorem): with custom input allowed and no
predefined items it goes straight to `PromptInput` (Skip on empty input
when optional, else Cancel, else Custom); with no items otherwise it
returns Cancel at once; with items it builds the display list (a synthetic
`[Skip]` row when optional, the items, a synthetic `[Custom]` row when
custom input is allowed), then checks the terminal exactly as `Pick`. -/
def PickString (loop : List Str → TermEnv → PickResult) (items : List Str)
    (optional allowCustom : Bool) (env : TermEnv) : PickResult × Effects :=
  if allowCustom && items.length = 0 then
    let ve := PromptInput env
    if ve.1 = [] then
      if optional then ({ action := .ActionSkip }, ve.2)
      else ({ action := .ActionCancel }, ve.2)
    else ({ action := .ActionCustom, value := ve.1 }, ve.2)
  else if items.length = 0 then ({ action := .ActionCancel }, {})
  else
    let displayItems :=
      (if optional then [str "[Skip]"] else []) ++ items ++
        (if allowCustom then [str "[Custom]"] else [])
    if !env.isTerminal then
      ({ action := .ActionCancel },
       { stderr := [str "Cannot show interactive picker: not a terminal"] })
    else if !env.makeRawOk then
      ({ action := .ActionCancel },
       { stderr := [str "Failed to enable raw mode"] })
    else (loop displayItems env, { rawEntered := true })

end laziest.picker

namespace laziest.shell

open laziest laziest.binding

/-- Go `strings.ReplaceAll(command, "'", "'\\''")` used for plain aliases. -/
def escSQ : Str → Str
  | [] => []
  | '\'' :: rest => str "'\\''" ++ escSQ rest
  | c :: rest => c :: escSQ rest

/-- One iteration of the `GenerateAliases` loop (shell.go lines 59-77): a
command with bindings aliases to `lz run name` for interactive resolution;
a plain command aliases to its quote-escaped text. -/
def aliasLine (name command : Str) : Str :=
  if HasBindings command then
    str "alias " ++ name ++ str "='lz run " ++ name ++ str "'\n"
  else
    str "alias " ++ name ++ str "='" ++ escSQ command ++ str "'\n"

/-- `shell.GenerateAliases` (shell.go lines 59-77) over the saved commands
as (name, command) pairs. -/
def GenerateAliases (cmds : List (Str × Str)) : Str :=
  str "# Managed by lz - do not edit manually\n" ++
  str "# Run 'lz' to manage your command aliases\n\n" ++
  (cmds.map (fun nc => aliasLine nc.1 nc.2)).foldr (· ++ ·) []

end laziest.shell

namespace laziest.config

open laziest laziest.binding

/-- A saved command as the add pipeline sees it (tags and timestamps are
external metadata not touched by the claims). -/
structure SavedCommand where
  name : Str
  command : Str
deriving DecidableEq, Repr

/-- `isValidAliasName` of `main.go` (lines 1074-1092): non-empty, first
character a letter or underscore, rest alphanumeric or underscore. -/
def isValidAliasName (name : Str) : Bool :=
  match name with
  | [] => false
  | c :: rest =>
    (('a' ≤ c && c ≤ 'z') || ('A' ≤ c && c ≤ 'Z') || c = '_') &&
      rest.all (fun d =>
        ('a' ≤ d && d ≤ 'z') || ('A' ≤ d && d ≤ 'Z') ||
        ('0' ≤ d && d ≤ '9') || d = '_')

/-- The storing core of `cmdAddRaw` (main.go lines 572-655), with the
external I/O (stdin read, config file load/save, alias-file write, tag
handling) elided: validate the alias name, trim the command, reject an
empty command, parse its bindings (a parse error aborts before anything is
stored), then append the command unless the name is taken.  Returns the
updated command list, or an error with nothing stored. -/
def cmdAddRawStore (resolvePath : Str → Str) (name command0 : Str)
    (cmds : List SavedCommand) : Except Str (List SavedCommand) :=
  if !isValidAliasName name then .error (str "invalid alias name")
  else if trimSpace command0 = [] then .error (str "command cannot be empty")
  else
    match binding.Parse resolvePath (trimSpace command0) with
    | .error e => .error e
    | .ok _ =>
      if cmds.any (fun c => c.name = name) then
        .error (str "command already exists")
      else .ok (cmds ++ [⟨name, trimSpace command0⟩])

end laziest.config

namespace laziest

/-- Does `pat` occur in `s` at index `i` (as a prefix of the suffix there)? -/
def occursAtB (pat s : Str) (i : Nat) : Bool := isPrefixB pat (s.drop i)

end laziest

namespace laziest.binding

open laziest

/-- A command contains a placeholder in the sense of `bindingPattern`: some
decomposition around `\x7b%` and `%\x7d` with non-empty, newline-free content. -/
def hasPlaceholder (s : Str) : Prop :=
  ∃ pre mid suf,
    s = pre ++ str "\x7b%" ++ mid ++ str "%\x7d" ++ suf ∧ mid ≠ [] ∧ '\n' ∉ mid

end laziest.binding

namespace laziest

theorem isPrefixB_iff (p : Str) : ∀ s : Str, isPrefixB p s = true ↔ ∃ t, s = p ++ t := by
  induction p with
  | nil => intro s; simp [isPrefixB]
  | cons a as ih =>
    intro s
    cases s with
    | nil => simp [isPrefixB]
    | cons b bs =>
      simp only [isPrefixB, Bool.and_eq_true, decide_eq_true_eq, ih bs, List.cons_append]
      constructor
      · rintro ⟨rfl, t, rfl⟩; exact ⟨t, rfl⟩
      · rintro ⟨t, h⟩
        injection h with h1 h2
        exact ⟨h1.symm, t, h2⟩

theorem isPrefixB_self_append (p t : Str) : isPrefixB p (p ++ t) = true :=
  (isPrefixB_iff p (p ++ t)).2 ⟨t, rfl⟩

theorem dropWhile_of_all {p : Char → Bool} {s : Str}
    (h : ∀ c ∈ s, p c = false) : s.dropWhile p = s := by
  cases s with
  | nil => rfl
  | cons c rest =>
    have := h c (by simp)
    simp [List.dropWhile, this]

theorem trimSpace_of_noSpace {s : Str} (h : ∀ c ∈ s, isGoSpace c = false) :
    trimSpace s = s := by
  unfold trimSpace
  rw [dropWhile_of_all h, dropWhile_of_all (by intro c hc; exact h c (List.mem_reverse.1 hc)),
    List.reverse_reverse]

theorem regexSpace_goSpace {c : Char} (h : isRegexSpace c = true) :
    isGoSpace c = true := by
  simp only [isRegexSpace, Bool.or_eq_true, decide_eq_true_eq] at h
  rcases h with (((h | h) | h) | h) | h <;> subst h <;> decide

theorem dropWhile_go_regex (s : Str) :
    (s.dropWhile isRegexSpace).dropWhile isGoSpace = s.dropWhile isGoSpace := by
  induction s with
  | nil => rfl
  | cons c rest ih =>
    by_cases h : isRegexSpace c = true
    · simp [List.dropWhile, h, regexSpace_goSpace h, ih]
    · have hc : isRegexSpace c = false := by simpa using h
      simp [List.dropWhile, hc]

theorem trimSpace_dropRegex (s : Str) :
    trimSpace (s.dropWhile isRegexSpace) = trimSpace s := by
  unfold trimSpace
  rw [dropWhile_go_regex]

theorem containsSub_of_isPrefixB {pat s : Str} (h : isPrefixB pat s = true) :
    containsSub pat s = true := by
  cases s with
  | nil => simpa [containsSub] using h
  | cons c rest => simp [containsSub, h]

theorem containsSub_cons (pat : Str) (c : Char) {s : Str}
    (h : containsSub pat s = true) : containsSub pat (c :: s) = true := by
  simp [containsSub, h]

theorem containsSub_mid (pat x y : Str) : containsSub pat (x ++ pat ++ y) = true := by
  induction x with
  | nil => exact containsSub_of_isPrefixB (isPrefixB_self_append pat y)
  | cons c cs ih => exact containsSub_cons pat c ih

theorem occursAtB_cons (pat : Str) (c : Char) (s : Str) (i : Nat) :
    occursAtB pat (c :: s) (i + 1) = occursAtB pat s i := rfl

theorem replaceFirstGo_skip {pat : Str} (repl : Str) {c : Char} {s : Str}
    (h : isPrefixB pat (c :: s) = false) :
    replaceFirstGo pat repl (c :: s) = c :: replaceFirstGo pat repl s := by
  simp [replaceFirstGo, h]

theorem replaceFirstGo_here {pat suf : Str} (repl : Str) (c : Char) (p' : Str)
    (hpat : pat = c :: p') :
    replaceFirstGo pat repl (pat ++ suf) = repl ++ suf := by
  subst hpat
  have h1 : isPrefixB (c :: p') ((c :: p') ++ suf) = true :=
    isPrefixB_self_append (c :: p') suf
  have h2 : ((c :: p') ++ suf).drop (c :: p').length = suf := List.drop_left _ _
  show replaceFirstGo (c :: p') repl (c :: (p' ++ suf)) = repl ++ suf
  unfold replaceFirstGo
  rw [show c :: (p' ++ suf) = (c :: p') ++ suf from rfl, if_pos h1, h2]

theorem replaceFirst_decomp (pre suf pat repl : Str) (hp : pat ≠ [])
    (h : ∀ i, i < pre.length → occursAtB pat (pre ++ pat ++ suf) i = false) :
    replaceFirst (pre ++ pat ++ suf) pat repl = pre ++ repl ++ suf := by
  unfold replaceFirst
  rw [if_neg hp]
  rw [List.append_assoc] at h ⊢
  rw [List.append_assoc]
  induction pre with
  | nil =>
    obtain ⟨c, p', hpat⟩ : ∃ c p', pat = c :: p' := by
      cases pat with
      | nil => exact absurd rfl hp
      | cons c p' => exact ⟨c, p', rfl⟩
    simpa using replaceFirstGo_here repl c p' hpat
  | cons c cs ih =>
    have h0 : isPrefixB pat (c :: (cs ++ (pat ++ suf))) = false := by
      have := h 0 (by simp)
      simpa [occursAtB] using this
    have hrest : ∀ i, i < cs.length → occursAtB pat (cs ++ (pat ++ suf)) i = false := by
      intro i hi
      have := h (i + 1) (by simpa using Nat.succ_lt_succ hi)
      simpa [occursAtB] using this
    rw [List.cons_append, replaceFirstGo_skip repl h0, ih hrest, List.cons_append]

end laziest

namespace laziest

theorem takeWhile_append_all {p : Char → Bool} {l : Str} (t : Str)
    (h : ∀ c ∈ l, p c = true) : (l ++ t).takeWhile p = l ++ t.takeWhile p := by
  induction l with
  | nil => rfl
  | cons c cs ih =>
    have hc := h c (by simp)
    simp [List.takeWhile, hc, ih (fun d hd => h d (by simp [hd]))]

theorem dropWhile_append_all {p : Char → Bool} {l : Str} (t : Str)
    (h : ∀ c ∈ l, p c = true) : (l ++ t).dropWhile p = t.dropWhile p := by
  induction l with
  | nil => rfl
  | cons c cs ih =>
    have hc := h c (by simp)
    simp [List.dropWhile, hc, ih (fun d hd => h d (by simp [hd]))]

theorem takeWhile_cons_neg {p : Char → Bool} {c : Char} (s : Str)
    (h : p c = false) : (c :: s).takeWhile p = [] := by
  simp [List.takeWhile, h]

theorem dropWhile_cons_neg {p : Char → Bool} {c : Char} (s : Str)
    (h : p c = false) : (c :: s).dropWhile p = c :: s := by
  simp [List.dropWhile, h]

theorem splitCommaGo_step {v : Str} (acc s : Str)
    (h : ∀ c ∈ v, c ≠ ',') :
    splitCommaGo acc (v ++ s) = splitCommaGo (v.reverse ++ acc) s := by
  induction v generalizing acc with
  | nil => simp
  | cons c cs ih =>
    have hc : (c = ',') = False := by simp [h c (by simp)]
    simp only [List.cons_append, splitCommaGo, hc, if_false, List.append_eq]
    rw [ih (c :: acc) (fun d hd => h d (by simp [hd]))]
    simp [List.append_assoc]

theorem splitComma_joinComma {vs : List Str} (hne : vs ≠ [])
    (h : ∀ v ∈ vs, ∀ c ∈ v, c ≠ ',') :
    splitComma (joinComma vs) = vs := by
  induction vs with
  | nil => exact absurd rfl hne
  | cons v rest ih =>
    cases rest with
    | nil =>
      show splitCommaGo [] (joinComma [v]) = [v]
      have hj : joinComma [v] = v ++ [] := by simp [joinComma]
      rw [hj, splitCommaGo_step [] [] (h v (by simp))]
      simp [splitCommaGo]
    | cons w ws =>
      show splitCommaGo [] (joinComma (v :: w :: ws)) = v :: w :: ws
      have hj : joinComma (v :: w :: ws) = v ++ (',' :: joinComma (w :: ws)) := by
        simp [joinComma]
      rw [hj, splitCommaGo_step [] (',' :: joinComma (w :: ws)) (h v (by simp))]
      simp only [splitCommaGo, if_pos, List.append_nil, List.reverse_reverse,
        if_true]
      rw [show splitCommaGo [] (joinComma (w :: ws)) =
            splitComma (joinComma (w :: ws)) from rfl]
      rw [ih (by simp) (fun u hu => h u (by simp [hu]))]

end laziest

namespace laziest.binding

open laziest

theorem wordDash_ne {c : Char} (h : isWordDash c = true) {d : Char}
    (hd : isWordDash d = false) : c ≠ d := by
  intro e; subst e; rw [h] at hd; cases hd

theorem wordDash_noGoSpace {c : Char} (h : isWordDash c = true) :
    isGoSpace c = false := by
  cases hg : isGoSpace c with
  | false => rfl
  | true =>
    exfalso
    simp only [isGoSpace, Bool.or_eq_true, decide_eq_true_eq] at hg
    rcases hg with ((((((hg | hg) | hg) | hg) | hg) | hg) | hg) | hg <;>
      subst hg <;> simp [isWordDash] at h

theorem collectValues_cons_dots (rest : List Str) :
    collectValues (str "..." :: rest) =
      match collectValues rest with
      | .error e => .error e
      | .ok (vs, _) => .ok (vs, true) := by
  simp [collectValues]

theorem collectValues_cons_empty (rest : List Str) :
    collectValues ([] :: rest) = .error () := by
  have hne : (([] : Str) = str "...") = False := by simp [str]
  simp [collectValues, hne]

theorem collectValues_cons_keep {v : Str} (rest : List Str)
    (hv : v ≠ str "...") (hv2 : v ≠ []) :
    collectValues (v :: rest) =
      match collectValues rest with
      | .error e => .error e
      | .ok (vs, c) => .ok (v :: vs, c) := by
  simp [collectValues, hv, hv2]

theorem collectValues_ok {vs : List Str} (h : ∀ v ∈ vs, v ≠ []) :
    collectValues vs =
      .ok (vs.filter (fun v => !(v == str "...")),
           vs.any (fun v => v == str "...")) := by
  induction vs with
  | nil => rfl
  | cons v rest ih =>
    have hrest := ih (fun u hu => h u (by simp [hu]))
    by_cases hv : v = str "..."
    · subst hv
      rw [collectValues_cons_dots, hrest]
      simp [List.filter, List.any]
    · have hvne : (v == str "...") = false := by simpa using hv
      rw [collectValues_cons_keep rest hv (h v (by simp)), hrest]
      simp [List.filter, List.any, hvne]

theorem collectValues_no_empty {vs fs : List Str} {cu : Bool}
    (h : collectValues vs = .ok (fs, cu)) : [] ∉ fs := by
  induction vs generalizing fs cu with
  | nil =>
    simp only [collectValues, Except.ok.injEq, Prod.mk.injEq] at h
    rw [← h.1]
    simp
  | cons v rest ih =>
    by_cases hv : v = str "..."
    · subst hv
      rw [collectValues_cons_dots] at h
      cases hr : collectValues rest with
      | error e => rw [hr] at h; cases h
      | ok p =>
        obtain ⟨fs', cu'⟩ := p
        rw [hr] at h
        simp only [Except.ok.injEq, Prod.mk.injEq] at h
        exact h.1 ▸ ih hr
    · by_cases hv2 : v = []
      · subst hv2
        rw [collectValues_cons_empty] at h
        cases h
      · rw [collectValues_cons_keep rest hv hv2] at h
        cases hr : collectValues rest with
        | error e => rw [hr] at h; cases h
        | ok p =>
          obtain ⟨fs', cu'⟩ := p
          rw [hr] at h
          simp only [Except.ok.injEq, Prod.mk.injEq] at h
          intro hmem
          rw [← h.1] at hmem
          rcases List.mem_cons.1 hmem with he | he
          · exact hv2 he.symm
          · exact ih hr he

theorem collectValues_err {vs : List Str} (h : ∃ v ∈ vs, v = []) :
    collectValues vs = .error () := by
  induction vs with
  | nil => simp at h
  | cons v rest ih =>
    obtain ⟨u, hu, hue⟩ := h
    rcases List.mem_cons.1 hu with he | he
    · have hv0 : v = [] := by rw [← he]; exact hue
      rw [hv0]
      exact collectValues_cons_empty rest
    · have hrest : collectValues rest = .error () := ih ⟨u, he, hue⟩
      by_cases hv : v = str "..."
      · rw [hv, collectValues_cons_dots, hrest]
      · by_cases hv2 : v = []
        · rw [hv2, collectValues_cons_empty]
        · rw [collectValues_cons_keep rest hv hv2, hrest]

end laziest.binding

namespace laziest.binding

open laziest

theorem isPrefixB_single (c d : Char) (t : Str) :
    isPrefixB [c] (d :: t) = decide (c = d) := by
  simp [isPrefixB]

theorem parsePre_plain {content : Str} (ph : Str) (hne : content ≠ [])
    (hns : ∀ c ∈ content, isGoSpace c = false)
    (hq : isPrefixB (str "?") content = false) :
    parsePre content ph = .ok (false, content) := by
  unfold parsePre
  rw [trimSpace_of_noSpace hns]
  simp [hne, hq]

theorem parsePre_opt {content : Str} (ph : Str) (hne : content ≠ [])
    (hns : ∀ c ∈ content, isGoSpace c = false) :
    parsePre ('?' :: content) ph = .ok (true, content) := by
  have hall : ∀ c ∈ ('?' :: content), isGoSpace c = false := by
    intro c hc
    rcases List.mem_cons.1 hc with he | he
    · subst he; decide
    · exact hns c he
  have hpre : isPrefixB (str "?") ('?' :: content) = true := by
    rw [show str "?" = ['?'] from rfl, isPrefixB_single]
    simp
  unfold parsePre
  rw [trimSpace_of_noSpace hall]
  simp only [List.cons_ne_nil, ite_false, if_neg (by simp : ¬('?' :: content = [])),
    hpre, if_true]
  simp only [List.drop_succ_cons, List.drop_zero]
  rw [trimSpace_of_noSpace hns]
  simp [hne]

theorem bareFlag_all {f : Str} (h : isBareFlag f = true) :
    ∀ c ∈ f, isWordDash c = true := by
  have := h
  unfold isBareFlag at this
  simp only [Bool.and_eq_true, List.all_eq_true] at this
  intro c hc
  exact this.2 c hc

theorem bareFlag_shape {f : Str} (h : isBareFlag f = true) :
    ∃ f1, f = '-' :: f1 ∧ f1 ≠ [] ∧ (∀ c ∈ f1, isWordDash c = true) := by
  unfold isBareFlag at h
  simp only [Bool.and_eq_true, List.all_eq_true, decide_eq_true_eq] at h
  obtain ⟨⟨hpre, hlen⟩, hall⟩ := h
  cases f with
  | nil => simp at hlen
  | cons c f1 =>
    rw [show str "-" = ['-'] from rfl, isPrefixB_single] at hpre
    have hc : c = '-' := by
      have := hpre
      simp only [decide_eq_true_eq] at this
      exact this.symm
    subst hc
    refine ⟨f1, rfl, ?_, fun d hd => hall d (by simp [hd])⟩
    intro he
    subst he
    simp at hlen

theorem flagPfxAt_hit (dashes : Str) {w : Str} (rest : Str) (hw : w ≠ [])
    (hall : ∀ c ∈ w, isWordDash c = true) :
    flagPfxAt dashes (dashes ++ (w ++ ':' :: rest)) =
      some (dashes ++ w, rest.dropWhile isRegexSpace) := by
  have hwd : isWordDash ':' = false := by decide
  have hdropW : (w ++ ':' :: rest).dropWhile isWordDash = ':' :: rest := by
    rw [dropWhile_append_all _ hall, dropWhile_cons_neg _ hwd]
  have htakeW : (w ++ ':' :: rest).takeWhile isWordDash = w := by
    rw [takeWhile_append_all _ hall, takeWhile_cons_neg _ hwd, List.append_nil]
  unfold flagPfxAt
  simp only [isPrefixB_self_append, if_true, List.drop_left, htakeW, hdropW]
  simp [hw]

theorem flagPfxAt_miss_empty (rest : Str) :
    flagPfxAt (str "--") ('-' :: '-' :: ':' :: rest) = none := by
  have hwd : isWordDash ':' = false := by decide
  unfold flagPfxAt
  have hpre : isPrefixB (str "--") ('-' :: '-' :: ':' :: rest) = true := by
    simp [str, isPrefixB]
  simp only [hpre, if_true]
  have hd : (('-' :: '-' :: ':' :: rest).drop (str "--").length) = ':' :: rest := rfl
  simp only [hd, takeWhile_cons_neg _ hwd, dropWhile_cons_neg _ hwd]
  simp

theorem flagPfxAt_miss_dash {d : Char} (hd : d ≠ '-') (t : Str) :
    flagPfxAt (str "--") ('-' :: d :: t) = none := by
  have hpre : isPrefixB (str "--") ('-' :: d :: t) = false := by
    simp [str, isPrefixB, Ne.symm hd]
  unfold flagPfxAt
  simp [hpre]

theorem matchFlagPfx_bare {f : Str} (hf : isBareFlag f = true) (rest : Str) :
    matchFlagPfx (f ++ ':' :: rest) = some (f, rest.dropWhile isRegexSpace) := by
  obtain ⟨f1, rfl, hne1, hall1⟩ := bareFlag_shape hf
  cases f1 with
  | nil => exact absurd rfl hne1
  | cons d f2 =>
    by_cases hd : d = '-'
    · subst hd
      cases f2 with
      | nil =>
        unfold matchFlagPfx
        rw [show (('-' :: '-' :: [] : Str) ++ ':' :: rest) = '-' :: '-' :: ':' :: rest
          from rfl, flagPfxAt_miss_empty]
        have h1 : flagPfxAt (str "-") (str "-" ++ (['-'] ++ ':' :: rest)) =
            some (str "-" ++ ['-'], rest.dropWhile isRegexSpace) :=
          flagPfxAt_hit (str "-") rest (by simp) (by intro c hc; simp at hc; subst hc; decide)
        simp only [Option.orElse, Option.none_orElse]
        exact h1
      | cons e f3 =>
        unfold matchFlagPfx
        have hall2 : ∀ c ∈ (e :: f3), isWordDash c = true := by
          intro c hc
          exact hall1 c (by simp at hc ⊢; tauto)
        have h1 : flagPfxAt (str "--") (str "--" ++ ((e :: f3) ++ ':' :: rest)) =
            some (str "--" ++ (e :: f3), rest.dropWhile isRegexSpace) :=
          flagPfxAt_hit (str "--") rest (by simp) hall2
        rw [show (('-' :: '-' :: e :: f3 : Str) ++ ':' :: rest) =
              str "--" ++ ((e :: f3) ++ ':' :: rest) from by simp [str],
          h1]
        simp [str, Option.orElse]
    · unfold matchFlagPfx
      have hall2 : ∀ c ∈ (d :: f2), isWordDash c = true := hall1
      have h1 : flagPfxAt (str "-") (str "-" ++ ((d :: f2) ++ ':' :: rest)) =
          some (str "-" ++ (d :: f2), rest.dropWhile isRegexSpace) :=
        flagPfxAt_hit (str "-") rest (by simp) hall2
      rw [show (('-' :: d :: f2 : Str) ++ ':' :: rest) = '-' :: d :: (f2 ++ ':' :: rest)
        from rfl, flagPfxAt_miss_dash hd]
      rw [show ('-' :: d :: (f2 ++ ':' :: rest) : Str) =
            str "-" ++ ((d :: f2) ++ ':' :: rest) from rfl, h1]
      simp [str, Option.orElse]

theorem map_eq_self_of {f : Str → Str} {vs : List Str}
    (h : ∀ v ∈ vs, f v = v) : vs.map f = vs := by
  induction vs with
  | nil => rfl
  | cons v rest ih =>
    simp only [List.map_cons, h v (by simp), ih (fun u hu => h u (by simp [hu]))]

theorem isSuffixB_concat (c : Char) (s : Str) : isSuffixB [c] (s ++ [c]) = true := by
  unfold isSuffixB
  simp [isPrefixB]

theorem joinComma_ne_nil {vs : List Str} (hne : vs ≠ [])
    (h : ∀ v ∈ vs, v ≠ []) : joinComma vs ≠ [] := by
  cases vs with
  | nil => exact absurd rfl hne
  | cons v rest =>
    cases rest with
    | nil => exact h v (by simp)
    | cons w ws =>
      show v ++ [','] ++ joinComma (w :: ws) ≠ []
      simp

theorem filter_ne_nil_of_no_dots {vs : List Str} (hne : vs ≠ [])
    (hany : vs.any (fun v => v == str "...") = false) :
    vs.filter (fun v => !(v == str "...")) ≠ [] := by
  cases vs with
  | nil => exact absurd rfl hne
  | cons v rest =>
    have hv : (v == str "...") = false := by
      by_contra hc
      simp only [Bool.not_eq_false] at hc
      simp [List.any, hc] at hany
    simp [List.filter, hv]

theorem parseBody_values (r : Str → Str) (ph : Str) (opt : Bool) (flag : Str)
    {vs : List Str} (hne : vs ≠ [])
    (hv1 : ∀ v ∈ vs, v ≠ [])
    (hv2 : ∀ v ∈ vs, ∀ c ∈ v, c ≠ ',')
    (hv3 : ∀ v ∈ vs, trimSpace v = v) :
    parseBody r ph opt flag ('[' :: (joinComma vs ++ [']'])) =
      .ok { btype := BindingValues,
            values := vs.filter (fun v => !(v == str "...")),
            placeholder := ph, optional := opt, flag := flag,
            allowCustom := vs.any (fun v => v == str "...") } := by
  have hpre : isPrefixB (str "[") ('[' :: (joinComma vs ++ [']'])) = true := by
    rw [show str "[" = ['['] from rfl, isPrefixB_single]
    simp
  have hsuf : isSuffixB (str "]") ('[' :: (joinComma vs ++ [']'])) = true := by
    rw [show str "]" = [']'] from rfl,
      show ('[' :: (joinComma vs ++ [']']) : Str) = ('[' :: joinComma vs) ++ [']']
        from by simp]
    exact isSuffixB_concat ']' ('[' :: joinComma vs)
  have hinner : (('[' :: (joinComma vs ++ [']']) : Str).drop 1).dropLast =
      joinComma vs := by
    simp [List.dropLast_concat]
  unfold parseBody
  rw [hpre, hsuf]
  simp only [Bool.and_self, if_true, hinner]
  rw [if_neg (joinComma_ne_nil hne hv1)]
  rw [splitComma_joinComma hne hv2, map_eq_self_of hv3, collectValues_ok hv1]
  by_cases hany : vs.any (fun v => v == str "...") = true
  · simp [hany]
  · have hany2 : vs.any (fun v => v == str "...") = false := by
      simp only [Bool.not_eq_true] at hany
      exact hany
    have hfil := filter_ne_nil_of_no_dots hne hany2
    simp [hany2, hfil]

theorem parseBody_dir (r : Str → Str) (ph : Str) (opt : Bool) (flag content : Str)
    (hnb : (isPrefixB (str "[") content && isSuffixB (str "]") content) = false) :
    ∃ p fl, parseBody r ph opt flag content =
      .ok { btype := BindingDirectory, path := p, filter := fl,
            placeholder := ph, optional := opt, flag := flag } := by
  unfold parseBody
  rw [hnb]
  exact ⟨_, _, rfl⟩

theorem parseAfterFlag_bare {f : Str} (hf : isBareFlag f = true) (r : Str → Str)
    (ph : Str) (opt : Bool) (rest : Str) :
    parseAfterFlag r ph opt (f ++ ':' :: rest) =
      if trimSpace rest = [] then .error (str "empty binding after flag: " ++ ph)
      else parseBody r ph opt f (trimSpace rest) := by
  unfold parseAfterFlag
  rw [matchFlagPfx_bare hf rest]
  simp only [trimSpace_dropRegex]

theorem findClose_complete {inner : Str}
    (hsub : containsSub (str "%\x7d") inner = false) (hnl : '\n' ∉ inner)
    (tail : Str) :
    findClose (inner ++ '%' :: '}' :: tail) = some (inner, tail) := by
  induction inner with
  | nil =>
    show findClose ('%' :: '}' :: tail) = some ([], tail)
    unfold findClose
    simp [isPrefixB, str]
  | cons c cs ih =>
    have hsub2 : containsSub (str "%\x7d") cs = false := by
      cases h2 : containsSub (str "%\x7d") cs with
      | false => rfl
      | true => rw [containsSub_cons _ c h2] at hsub; cases hsub
    have hnl2 : '\n' ∉ cs := fun h => hnl (by simp [h])
    have hcnl : c ≠ '\n' := fun h => hnl (by simp [h])
    have hcond : (c = '%' && isPrefixB (str "\x7d") (cs ++ '%' :: '}' :: tail)) = false := by
      by_cases hc : c = '%'
      · subst hc
        cases cs with
        | nil => simp [isPrefixB, str]
        | cons d ds =>
          by_cases hd : d = '}'
          · subst hd
            exfalso
            have : isPrefixB (str "%\x7d") ('%' :: '}' :: ds) = true := by
              simp [isPrefixB, str]
            rw [containsSub_of_isPrefixB this] at hsub
            cases hsub
          · have : isPrefixB (str "\x7d") (d :: (ds ++ '%' :: '}' :: tail)) = false := by
              rw [show str "\x7d" = ['\x7d'] from rfl, isPrefixB_single]
              simp [Ne.symm hd]
            simp [this]
      · simp [hc]
    show findClose (c :: (cs ++ '%' :: '}' :: tail)) = some (c :: cs, tail)
    unfold findClose
    rw [hcond]
    simp only [Bool.false_eq_true, if_false, if_neg hcnl, ih hsub2 hnl2]
    rfl

theorem scanClose_complete {inner : Str} (hne : inner ≠ [])
    (hsub : containsSub (str "%\x7d") inner = false) (hnl : '\n' ∉ inner)
    (tail : Str) :
    scanClose (inner ++ '%' :: '}' :: tail) = some (inner, tail) := by
  cases inner with
  | nil => exact absurd rfl hne
  | cons c cs =>
    have hsub2 : containsSub (str "%\x7d") cs = false := by
      cases h2 : containsSub (str "%\x7d") cs with
      | false => rfl
      | true => rw [containsSub_cons _ c h2] at hsub; cases hsub
    have hnl2 : '\n' ∉ cs := fun h => hnl (by simp [h])
    have hcnl : (c = '\n') = False := by simp; exact fun h => hnl (by simp [h])
    show scanClose (c :: (cs ++ '%' :: '}' :: tail)) = some (c :: cs, tail)
    simp only [scanClose, hcnl, if_false, findClose_complete hsub2 hnl2 tail]
    rfl

theorem findAllAux_nil_any_fuel (fuel : Nat) : findAllAux fuel [] = [] := by
  cases fuel <;> rfl

theorem findAll_single {inner : Str} (hne : inner ≠ [])
    (hsub : containsSub (str "%\x7d") inner = false) (hnl : '\n' ∉ inner) :
    findAll (str "\x7b%" ++ inner ++ str "%\x7d") =
      [(str "\x7b%" ++ inner ++ str "%\x7d", inner)] := by
  have hshape : (str "\x7b%" ++ inner ++ str "%\x7d" : Str) =
      '{' :: '%' :: (inner ++ '%' :: '}' :: []) := by
    simp [str]
  rw [findAll, hshape]
  have hsc := scanClose_complete hne hsub hnl ([] : Str)
  simp only [List.length_cons, findAllAux]
  rw [if_pos (by simp [isPrefixB, str] :
    (decide True &&
      isPrefixB (str "%") ('%' :: (inner ++ '%' :: '}' :: []))) = true)]
  rw [show (('%' :: (inner ++ '%' :: '}' :: []) : Str).drop 1) =
    inner ++ '%' :: '}' :: [] from rfl, hsc]
  simp [str, findAllAux_nil_any_fuel]

theorem findClose_sound {s p r : Str} (h : findClose s = some (p, r)) :
    s = p ++ '%' :: '}' :: r ∧ '\n' ∉ p := by
  induction s generalizing p r with
  | nil => cases h
  | cons c rest ih =>
    unfold findClose at h
    by_cases hc : (c = '%' && isPrefixB (str "\x7d") rest) = true
    · rw [if_pos hc] at h
      simp only [Option.some.injEq, Prod.mk.injEq] at h
      obtain ⟨hp, hr⟩ := h
      simp only [Bool.and_eq_true, decide_eq_true_eq] at hc
      obtain ⟨rfl, hpre⟩ := hc
      obtain ⟨t, rfl⟩ := (isPrefixB_iff _ _).1 hpre
      subst hp
      rw [← hr]
      simp [str]
    · rw [if_neg hc] at h
      by_cases hn : c = '\n'
      · rw [if_pos hn] at h; cases h
      · rw [if_neg hn] at h
        cases hf : findClose rest with
        | none => rw [hf] at h; cases h
        | some pr =>
          obtain ⟨p', r'⟩ := pr
          rw [hf] at h
          have h2 : (some (c :: p', r') : Option (Str × Str)) = some (p, r) := h
          simp only [Option.some.injEq, Prod.mk.injEq] at h2
          obtain ⟨hp, hr⟩ := h2
          obtain ⟨hrest, hnl⟩ := ih hf
          subst hrest
          rw [← hp, ← hr]
          refine ⟨by simp, ?_⟩
          intro hmem
          rcases List.mem_cons.1 hmem with he | he
          · exact hn he.symm
          · exact hnl he

theorem scanClose_sound {s p r : Str} (h : scanClose s = some (p, r)) :
    s = p ++ '%' :: '}' :: r ∧ p ≠ [] ∧ '\n' ∉ p := by
  cases s with
  | nil => cases h
  | cons c rest =>
    have h1 : (if c = '\n' then none
        else (findClose rest).map (fun pr => (c :: pr.1, pr.2))) =
        some (p, r) := h
    by_cases hn : c = '\n'
    · rw [if_pos hn] at h1; cases h1
    · rw [if_neg hn] at h1
      cases hf : findClose rest with
      | none => rw [hf] at h1; cases h1
      | some pr =>
        obtain ⟨p', r'⟩ := pr
        rw [hf] at h1
        have h2 : (some (c :: p', r') : Option (Str × Str)) = some (p, r) := h1
        simp only [Option.some.injEq, Prod.mk.injEq] at h2
        obtain ⟨hp, hr⟩ := h2
        obtain ⟨hrest, hnl⟩ := findClose_sound hf
        subst hrest
        rw [← hp, ← hr]
        refine ⟨by simp, by simp, ?_⟩
        intro hmem
        rcases List.mem_cons.1 hmem with he | he
        · exact hn he.symm
        · exact hnl he

theorem hasPlaceholder_cons {s : Str} (c : Char) (h : hasPlaceholder s) :
    hasPlaceholder (c :: s) := by
  obtain ⟨pre, mid, suf, heq, hne, hnl⟩ := h
  exact ⟨c :: pre, mid, suf, by rw [heq]; rfl, hne, hnl⟩

theorem findAllAux_nil {fuel : Nat} : ∀ {s : Str}, ¬ hasPlaceholder s →
    findAllAux fuel s = [] := by
  induction fuel with
  | zero => intro s _; rfl
  | succ fuel ih =>
    intro s hnp
    cases s with
    | nil => rfl
    | cons c rest =>
      by_cases hc : (decide (c = '{') && isPrefixB (str "%") rest) = true
      · have hc' := hc
        simp only [Bool.and_eq_true, decide_eq_true_eq] at hc'
        obtain ⟨rfl, hpre⟩ := hc'
        obtain ⟨rest3, hr3⟩ := (isPrefixB_iff _ _).1 hpre
        simp only [findAllAux]
        rw [if_pos (show (decide True && isPrefixB (str "%") rest) = true by
          simpa using hc)]
        have hdrop : (rest.drop 1) = rest3 := by rw [hr3]; rfl
        rw [hdrop]
        cases hsc : scanClose rest3 with
        | some pr =>
          obtain ⟨content, after⟩ := pr
          exfalso
          obtain ⟨hrest, hne2, hnl⟩ := scanClose_sound hsc
          refine hnp ⟨[], content, after, ?_, hne2, hnl⟩
          rw [hr3, hrest]
          simp [str]
        | none =>
          exact ih (fun hp => hnp (hasPlaceholder_cons '{' hp))
      · simp only [findAllAux]
        rw [if_neg hc]
        exact ih (fun hp => hnp (hasPlaceholder_cons c hp))

theorem findAll_nil {s : Str} (hnp : ¬ hasPlaceholder s) : findAll s = [] :=
  findAllAux_nil hnp

theorem hasPlaceholder_hasBindings {s : Str} (h : hasPlaceholder s) :
    HasBindings s = true := by
  obtain ⟨pre, mid, suf, heq, _, _⟩ := h
  subst heq
  unfold HasBindings
  rw [show (pre ++ str "\x7b%" ++ mid ++ str "%\x7d" ++ suf : Str) =
        pre ++ str "\x7b%" ++ (mid ++ str "%\x7d" ++ suf) from by simp]
  exact containsSub_mid _ pre _

end laziest.binding

namespace laziest.binding

open laziest

theorem containsSub_of_append_prefix {p t : Str} (u : Str)
    (h : isPrefixB p t = true) : containsSub p (u ++ t) = true := by
  induction u with
  | nil => exact containsSub_of_isPrefixB h
  | cons c cs ih => exact containsSub_cons p c ih

theorem tryPat_contains {f p s r : Str} (h : tryPat f p s = some r) :
    containsSub p s = true := by
  unfold tryPat at h
  by_cases hf : isPrefixB f s = true
  · rw [if_pos hf] at h
    by_cases hp : isPrefixB p
        (eatEq ((s.drop f.length).dropWhile isRegexSpace)) = true
    · have hsuf : eatEq ((s.drop f.length).dropWhile isRegexSpace) <:+ s := by
        have h1 : (s.drop f.length).dropWhile isRegexSpace <:+ s :=
          (List.dropWhile_suffix _).trans (List.drop_suffix _ _)
        unfold eatEq
        by_cases he : isPrefixB (str "=")
            ((s.drop f.length).dropWhile isRegexSpace) = true
        · rw [if_pos he]
          exact ((List.dropWhile_suffix _).trans (List.drop_suffix _ _)).trans h1
        · rw [if_neg he]
          exact h1
      obtain ⟨u, hu⟩ := hsuf
      rw [← hu]
      exact containsSub_of_append_prefix u hp
    · rw [if_neg hp] at h
      cases h
  · rw [if_neg hf] at h
    cases h

theorem tryPat_none_of_no_flag {f p s : Str} (h : isPrefixB f s = false) :
    tryPat f p s = none := by
  unfold tryPat
  rw [h]
  simp

theorem tryPat_hit (f p2 suf : Str) {p sep : Str}
    (hp : p = '{' :: p2) (hsep : sep = str " " ∨ sep = str "=") :
    tryPat f p (f ++ sep ++ p ++ suf) = some suf := by
  subst hp
  have hdropP : ((('{' :: p2) ++ suf : Str)).dropWhile isRegexSpace =
      ('{' :: p2) ++ suf := by
    rw [show (('{' :: p2 : Str) ++ suf) = '{' :: (p2 ++ suf) from rfl]
    exact dropWhile_cons_neg _ (by decide)
  have heatP : eatEq (('{' :: p2) ++ suf) = ('{' :: p2) ++ suf := by
    unfold eatEq
    rw [if_neg (by simp [isPrefixB, str] :
      ¬ isPrefixB (str "=") (('{' :: p2) ++ suf) = true)]
  have hmain : eatEq (((sep ++ (('{' :: p2) ++ suf)).dropWhile isRegexSpace)) =
      ('{' :: p2) ++ suf := by
    rcases hsep with rfl | rfl
    · rw [show ((str " " ++ (('{' :: p2) ++ suf) : Str)) =
        ' ' :: (('{' :: p2) ++ suf) from rfl]
      rw [show ((' ' :: (('{' :: p2) ++ suf) : Str).dropWhile isRegexSpace) =
        (('{' :: p2) ++ suf).dropWhile isRegexSpace from by
          simp [List.dropWhile, show isRegexSpace ' ' = true from by decide]]
      rw [hdropP, heatP]
    · rw [show ((str "=" ++ (('{' :: p2) ++ suf) : Str)) =
        '=' :: (('{' :: p2) ++ suf) from rfl]
      rw [show (('=' :: (('{' :: p2) ++ suf) : Str).dropWhile isRegexSpace) =
        '=' :: (('{' :: p2) ++ suf) from dropWhile_cons_neg _ (by decide)]
      unfold eatEq
      rw [if_pos (by simp [isPrefixB, str] :
        isPrefixB (str "=") ('=' :: (('{' :: p2) ++ suf)) = true)]
      rw [show (('=' :: (('{' :: p2) ++ suf) : Str).drop 1) = ('{' :: p2) ++ suf
        from rfl]
      exact hdropP
  unfold tryPat
  rw [show ((f ++ sep ++ ('{' :: p2) ++ suf : Str)) =
    f ++ (sep ++ (('{' :: p2) ++ suf)) from by simp]
  rw [isPrefixB_self_append, if_pos rfl, List.drop_left, hmain,
    isPrefixB_self_append, if_pos rfl, List.drop_left]

end laziest.binding

namespace laziest.binding

open laziest

theorem removeAllAux_no_p {f p : Str} : ∀ (fuel : Nat) {t : Str},
    containsSub p t = false → removeAllAux f p fuel t = t := by
  intro fuel
  induction fuel with
  | zero => intro t _; rfl
  | succ fuel ih =>
    intro t hnp
    cases t with
    | nil => rfl
    | cons c rest =>
      have hrest : containsSub p rest = false := by
        cases h2 : containsSub p rest with
        | false => rfl
        | true => rw [containsSub_cons p c h2] at hnp; cases hnp
      cases htp : tryPat f p (c :: rest) with
      | some after =>
        exfalso
        rw [tryPat_contains htp] at hnp
        cases hnp
      | none =>
        simp only [removeAllAux, htp]
        rw [ih hrest]

theorem removeAllAux_cons_skip {f p : Str} {c : Char} {rest : Str} (fuel : Nat)
    (h : tryPat f p (c :: rest) = none) :
    removeAllAux f p (fuel + 1) (c :: rest) = c :: removeAllAux f p fuel rest := by
  simp only [removeAllAux, h]

theorem removeAllAux_cons_hit {f p : Str} {c : Char} {rest after : Str}
    (fuel : Nat) (h : tryPat f p (c :: rest) = some after)
    (hlt : after.length < rest.length + 1) :
    removeAllAux f p (fuel + 1) (c :: rest) = removeAllAux f p fuel after := by
  simp only [removeAllAux, h]
  rw [if_pos hlt]

theorem containsPat_append {f p t : Str}
    (h : (tryPat f p t).isSome = true) :
    ∀ u : Str, containsPat f p (u ++ t) = true := by
  intro u
  induction u with
  | nil =>
    cases t with
    | nil => simpa [containsPat] using h
    | cons c rest => simp [containsPat, h]
  | cons c cs ih => simp [containsPat, ih]

theorem removeAllAux_decomp {f p sep : Str} (p2 : Str)
    (hp : p = '{' :: p2) (hsep : sep = str " " ∨ sep = str "=")
    {suf : Str} (hsuf : containsSub p suf = false) :
    ∀ (pre : Str) (fuel : Nat), pre.length + 1 ≤ fuel →
    (∀ i, i < pre.length →
      isPrefixB f ((pre ++ f ++ sep ++ p ++ suf).drop i) = false) →
    removeAllAux f p fuel (pre ++ f ++ sep ++ p ++ suf) = pre ++ suf := by
  intro pre
  induction pre with
  | nil =>
    intro fuel hfuel _
    obtain ⟨fu, rfl⟩ : ∃ fu, fuel = fu + 1 := ⟨fuel - 1, by omega⟩
    obtain ⟨c, rest0, hcr⟩ : ∃ c rest0,
        (f ++ sep ++ p ++ suf : Str) = c :: rest0 := by
      cases f with
      | nil =>
        rcases hsep with rfl | rfl
        · exact ⟨' ', p ++ suf, by simp [str]⟩
        · exact ⟨'=', p ++ suf, by simp [str]⟩
      | cons c f2 => exact ⟨c, f2 ++ sep ++ p ++ suf, by simp⟩
    have hhit : tryPat f p (c :: rest0) = some suf := by
      rw [← hcr]
      exact tryPat_hit f p2 suf hp hsep
    have hlen : suf.length < rest0.length + 1 := by
      have hl : (c :: rest0).length = (f ++ sep ++ p ++ suf).length := by
        rw [hcr]
      have hsep1 : sep.length = 1 := by
        rcases hsep with rfl | rfl <;> rfl
      have hpl : p.length = p2.length + 1 := by rw [hp]; rfl
      simp only [List.length_cons, List.length_append] at hl
      omega
    rw [show (([] : Str) ++ f ++ sep ++ p ++ suf : Str) = c :: rest0 from by
      simpa using hcr]
    rw [removeAllAux_cons_hit fu hhit hlen, removeAllAux_no_p fu hsuf]
    simp
  | cons a pre2 ih =>
    intro fuel hfuel hnof
    obtain ⟨fu, rfl⟩ : ∃ fu, fuel = fu + 1 := ⟨fuel - 1, by omega⟩
    have hcons : ((a :: pre2 : Str) ++ f ++ sep ++ p ++ suf) =
        a :: (pre2 ++ f ++ sep ++ p ++ suf) := by simp
    have h0 : isPrefixB f (a :: (pre2 ++ f ++ sep ++ p ++ suf)) = false := by
      have h00 := hnof 0 (by simp)
      rw [List.drop_zero, hcons] at h00
      exact h00
    have hskip : tryPat f p (a :: (pre2 ++ f ++ sep ++ p ++ suf)) = none :=
      tryPat_none_of_no_flag h0
    rw [hcons, removeAllAux_cons_skip fu hskip]
    have hfu2 : pre2.length + 1 ≤ fu := by
      simp only [List.length_cons] at hfuel
      omega
    have hshift : ∀ i, i < pre2.length →
        isPrefixB f ((pre2 ++ f ++ sep ++ p ++ suf).drop i) = false := by
      intro i hi
      have h1 := hnof (i + 1) (by simp only [List.length_cons]; omega)
      rw [hcons] at h1
      rw [List.drop_succ_cons] at h1
      exact h1
    rw [ih fu hfu2 hshift]
    simp

end laziest.binding

namespace laziest

theorem head?_dropWhile {q : Char → Bool} :
    ∀ {s : Str} {c : Char}, (s.dropWhile q).head? = some c → q c = false := by
  intro s
  induction s with
  | nil => intro c h; cases h
  | cons a rest ih =>
    intro c h
    by_cases ha : q a = true
    · rw [List.dropWhile_cons_of_pos ha] at h
      exact ih h
    · have ha2 : q a = false := by simpa using ha
      rw [dropWhile_cons_neg _ ha2] at h
      simp only [List.head?_cons, Option.some.injEq] at h
      rw [← h]
      exact ha2

theorem trimSpace_getLast {s : Str} {c : Char}
    (h : (trimSpace s).getLast? = some c) : isGoSpace c = false := by
  unfold trimSpace at h
  rw [List.getLast?_reverse] at h
  exact head?_dropWhile h

theorem trimSpace_head {s : Str} {c : Char}
    (h : (trimSpace s).head? = some c) : isGoSpace c = false := by
  unfold trimSpace at h
  rw [List.head?_reverse] at h
  set t := s.dropWhile isGoSpace with ht
  have hsuf : t.reverse.dropWhile isGoSpace <:+ t.reverse :=
    List.dropWhile_suffix _
  obtain ⟨w, hw⟩ := hsuf
  cases hu : t.reverse.dropWhile isGoSpace with
  | nil => rw [hu] at h; cases h
  | cons d u2 =>
    rw [hu] at hw h
    have h2 : (w ++ (d :: u2)).getLast? = (d :: u2).getLast? :=
      List.getLast?_append_of_ne_nil w (by simp)
    rw [hw] at h2
    rw [← h2, List.getLast?_reverse] at h
    exact head?_dropWhile h

theorem normalizeWs_head {s : Str} {c : Char}
    (h : (normalizeWs s).head? = some c) : isGoSpace c = false :=
  trimSpace_head h

theorem normalizeWs_getLast {s : Str} {c : Char}
    (h : (normalizeWs s).getLast? = some c) : isGoSpace c = false :=
  trimSpace_getLast h

end laziest

namespace laziest.binding

open laziest

theorem containsSub_pct_false {s : Str} (h : '%' ∉ s) :
    containsSub (str "%\x7d") s = false := by
  induction s with
  | nil => rfl
  | cons c rest ih =>
    have hc : ('%' = c) = False := by
      simp only [eq_iff_iff, iff_false]
      intro he
      exact h (by simp [← he])
    have hrest := ih (fun hm => h (by simp [hm]))
    show (isPrefixB (str "%\x7d") (c :: rest) || containsSub (str "%\x7d") rest) = false
    rw [hrest]
    rw [show (str "%\x7d" : Str) = '%' :: ['}'] from rfl]
    show (isPrefixB ('%' :: ['}']) (c :: rest) || false) = false
    simp [isPrefixB, hc]

theorem noSpace_no_nl {s : Str} (h : ∀ c ∈ s, isGoSpace c = false) :
    '\n' ∉ s := by
  intro hm
  have := h '\n' hm
  simp [isGoSpace] at this

theorem bareFlag_ne_nil {f : Str} (hf : isBareFlag f = true) : f ≠ [] := by
  obtain ⟨f1, rfl, _, _⟩ := bareFlag_shape hf
  simp

theorem bareFlag_noSpace {f : Str} (hf : isBareFlag f = true) :
    ∀ c ∈ f, isGoSpace c = false :=
  fun c hc => wordDash_noGoSpace (bareFlag_all hf c hc)

theorem bareFlag_no_pct {f : Str} (hf : isBareFlag f = true) : '%' ∉ f := by
  intro hm
  have := bareFlag_all hf '%' hm
  simp [isWordDash] at this

theorem isBareFlag_colon_false (f rest : Str) :
    isBareFlag (f ++ ':' :: rest) = false := by
  cases h : isBareFlag (f ++ ':' :: rest) with
  | false => rfl
  | true =>
    exfalso
    have := bareFlag_all h ':' (by simp)
    simp [isWordDash] at this

theorem ParseCur_single (r : Str → Str) {inner : Str} (hne : inner ≠ [])
    (hpc : containsSub (str "%\x7d") inner = false) (hnl : '\n' ∉ inner) :
    ParseCur r (str "\x7b%" ++ inner ++ str "%\x7d") =
      (match parseContentCur r inner (str "\x7b%" ++ inner ++ str "%\x7d") with
       | .error e => .error e
       | .ok b => .ok [b]) := by
  unfold ParseCur
  rw [findAll_single hne hpc hnl]
  cases h : parseContentCur r inner (str "\x7b%" ++ inner ++ str "%\x7d") with
  | error e =>
    rw [List.append_assoc] at h
    simp [parseEach, h, List.append_assoc]
  | ok b =>
    rw [List.append_assoc] at h
    simp [parseEach, h, List.append_assoc]

theorem parseContentCur_bare (r : Str → Str) (ph : Str) {f : Str}
    (hf : isBareFlag f = true) (opt : Bool) :
    parseContentCur r ((if opt then str "?" else []) ++ f) ph =
      .ok { btype := BindingBooleanFlag, flag := f, placeholder := ph,
            optional := opt } := by
  have hfne := bareFlag_ne_nil hf
  have hfns := bareFlag_noSpace hf
  unfold parseContentCur
  cases opt with
  | false =>
    have hq : isPrefixB (str "?") f = false := by
      obtain ⟨f1, rfl, _, _⟩ := bareFlag_shape hf
      rw [show str "?" = ['?'] from rfl, isPrefixB_single]
      simp
    rw [show ((if false = true then str "?" else []) ++ f : Str) = f from by simp]
    rw [parsePre_plain ph hfne hfns hq]
    simp [hf]
  | true =>
    rw [show ((if true = true then str "?" else []) ++ f : Str) = '?' :: f from by
      simp [str]]
    rw [parsePre_opt ph hfne hfns]
    simp [hf]

theorem parseContentCur_flag (r : Str → Str) (ph : Str) {f : Str}
    (hf : isBareFlag f = true) (opt : Bool) {rest : Str} (hr1 : rest ≠ [])
    (hr2 : ∀ c ∈ rest, isGoSpace c = false) :
    parseContentCur r ((if opt then str "?" else []) ++ (f ++ ':' :: rest)) ph =
      parseBody r ph opt f rest := by
  have hfne := bareFlag_ne_nil hf
  have hfns := bareFlag_noSpace hf
  have hcns : ∀ c ∈ (f ++ ':' :: rest), isGoSpace c = false := by
    intro c hc
    rcases List.mem_append.1 hc with hm | hm
    · exact hfns c hm
    · rcases List.mem_cons.1 hm with he | he
      · subst he; decide
      · exact hr2 c he
  have hcne : (f ++ ':' :: rest : Str) ≠ [] := by simp
  have htrim : trimSpace rest = rest := trimSpace_of_noSpace hr2
  have hafter : parseAfterFlag r ph opt (f ++ ':' :: rest) =
      parseBody r ph opt f rest := by
    rw [parseAfterFlag_bare hf r ph opt rest, htrim, if_neg hr1]
  unfold parseContentCur
  cases opt with
  | false =>
    have hq : isPrefixB (str "?") (f ++ ':' :: rest) = false := by
      obtain ⟨f1, rfl, _, _⟩ := bareFlag_shape hf
      rw [show str "?" = ['?'] from rfl]
      rw [show (('-' :: f1 : Str) ++ ':' :: rest) = '-' :: (f1 ++ ':' :: rest)
        from rfl, isPrefixB_single]
      simp
    rw [show ((if false = true then str "?" else []) ++ (f ++ ':' :: rest) : Str) =
      f ++ ':' :: rest from by simp]
    rw [parsePre_plain ph hcne hcns hq]
    simp [isBareFlag_colon_false, hafter]
  | true =>
    rw [show ((if true = true then str "?" else []) ++ (f ++ ':' :: rest) : Str) =
      '?' :: (f ++ ':' :: rest) from by simp [str]]
    rw [parsePre_opt ph hcne hcns]
    simp [isBareFlag_colon_false, hafter]

end laziest.binding

namespace laziest.binding

open laziest

theorem parseBody_no_empty {r : Str → Str} {ph : Str} {opt : Bool}
    {flag content : Str} {b : Binding}
    (h : parseBody r ph opt flag content = .ok b) : [] ∉ b.values := by
  unfold parseBody at h
  by_cases hb : (isPrefixB (str "[") content && isSuffixB (str "]") content) = true
  · rw [if_pos hb] at h
    by_cases hi : ((content.drop 1).dropLast : Str) = []
    · rw [if_pos hi] at h; cases h
    · rw [if_neg hi] at h
      cases hc : collectValues
          ((splitComma ((content.drop 1).dropLast)).map trimSpace) with
      | error e => rw [hc] at h; cases h
      | ok p =>
        obtain ⟨fs, cu⟩ := p
        rw [hc] at h
        dsimp only at h
        by_cases hg : (decide (fs = []) && !cu) = true
        · rw [if_pos hg] at h; cases h
        · rw [if_neg hg] at h
          simp only [Except.ok.injEq] at h
          rw [← h]
          exact collectValues_no_empty hc
  · rw [if_neg hb] at h
    simp only [Except.ok.injEq] at h
    rw [← h]
    simp

theorem parseContent_no_empty {r : Str → Str} {content ph : Str} {b : Binding}
    (h : parseContent r content ph = .ok b) : [] ∉ b.values := by
  unfold parseContent at h
  cases hp : parsePre content ph with
  | error e => rw [hp] at h; cases h
  | ok oc =>
    obtain ⟨opt, c2⟩ := oc
    rw [hp] at h
    dsimp only at h
    unfold parseAfterFlag at h
    cases hm : matchFlagPfx c2 with
    | some fr =>
      obtain ⟨fl, rest⟩ := fr
      rw [hm] at h
      dsimp only at h
      by_cases ht : trimSpace rest = []
      · rw [if_pos ht] at h; cases h
      · rw [if_neg ht] at h
        exact parseBody_no_empty h
    | none =>
      rw [hm] at h
      dsimp only at h
      exact parseBody_no_empty h

theorem parseEach_mem {pc : (Str → Str) → Str → Str → Except Str Binding}
    {r : Str → Str} :
    ∀ {ms : List (Str × Str)} {bs : List Binding} {b : Binding},
    parseEach pc r ms = .ok bs → b ∈ bs →
    ∃ ph ct, pc r ct ph = .ok b := by
  intro ms
  induction ms with
  | nil =>
    intro bs b h hb
    simp only [parseEach, Except.ok.injEq] at h
    rw [← h] at hb
    simp at hb
  | cons m rest ih =>
    intro bs b h hb
    obtain ⟨ph, ct⟩ := m
    unfold parseEach at h
    cases h1 : pc r ct ph with
    | error e => rw [h1] at h; cases h
    | ok b0 =>
      rw [h1] at h
      cases h2 : parseEach pc r rest with
      | error e => rw [h2] at h; cases h
      | ok bs0 =>
        rw [h2] at h
        simp only [Except.ok.injEq] at h
        rw [← h] at hb
        rcases List.mem_cons.1 hb with he | he
        · exact ⟨ph, ct, he ▸ h1⟩
        · exact ih h2 he

end laziest.binding

open laziest laziest.binding laziest.flagparse laziest.picker laziest.shell
  laziest.config in
/-- Claim C7: for every command string containing zero placeholder
occurrences (no decomposition around a non-empty, newline-free
placeholder body), the Parser returns the empty binding sequence and
never an error. -/
theorem claimC7 (resolvePath : Str → Str) (cmd : Str)
    (h : ¬ laziest.binding.hasPlaceholder cmd) :
    laziest.binding.Parse resolvePath cmd = .ok [] := by
  unfold laziest.binding.Parse
  rw [laziest.binding.findAll_nil h]
  rfl

/-- Witness for C7 at the command `echo hello`. -/
theorem claimC7_witness :
    ¬ laziest.binding.hasPlaceholder (str "echo hello") ∧
    laziest.binding.Parse id (str "echo hello") = .ok [] :=
  have hnp : ¬ laziest.binding.hasPlaceholder (str "echo hello") := fun hp =>
    absurd (laziest.binding.hasPlaceholder_hasBindings hp) (by decide)
  ⟨hnp, claimC7 id (str "echo hello") hnp⟩

/-- Claim C8: on the watch/aws example command, the Flag Extractor yields
exactly the flags `-n 10`, `--instance-ids i-0c7b`, `--profile
ai-dev/Admin`, all non-boolean, in that order, with base text `watch`; and
`ParseSegments` preserves `aws ec2 start-instances` as intervening static
text in its original position between the first and second flag. -/
theorem claimC8 :
    laziest.flagparse.Parse (str "watch -n 10 aws ec2 start-instances --instance-ids i-0c7b --profile ai-dev/Admin") =
      (str "watch",
       [⟨str "-n", str "10", false, 6, 11⟩,
        ⟨str "--instance-ids", str "i-0c7b", false, 36, 57⟩,
        ⟨str "--profile", str "ai-dev/Admin", false, 58, 80⟩]) ∧
    laziest.flagparse.ParseSegments (str "watch -n 10 aws ec2 start-instances --instance-ids i-0c7b --profile ai-dev/Admin") =
      [⟨.SegmentStatic, str "watch", none⟩,
       ⟨.SegmentFlag, [], some ⟨str "-n", str "10", false⟩⟩,
       ⟨.SegmentStatic, str "aws ec2 start-instances", none⟩,
       ⟨.SegmentFlag, [], some ⟨str "--instance-ids", str "i-0c7b", false⟩⟩,
       ⟨.SegmentFlag, [], some ⟨str "--profile", str "ai-dev/Admin", false⟩⟩] :=
  ⟨by decide, by decide⟩

/-- Claim C10 (implicit): `HasBindings` is exactly a substring test for the
two characters opening a placeholder, so a command such as `echo \x7b%` with
no complete placeholder reports bindings present while `Parse` returns the
empty sequence with no error, and alias generation routes such a command to
interactive `lz run` resolution. -/
theorem claimC10 :
    (∀ cmd : Str, laziest.binding.HasBindings cmd =
      laziest.containsSub (str "\x7b%") cmd) ∧
    laziest.binding.HasBindings (str "echo \x7b%") = true ∧
    (∀ resolvePath : Str → Str,
      laziest.binding.Parse resolvePath (str "echo \x7b%") = .ok []) ∧
    (∀ name cmd : Str, laziest.binding.HasBindings cmd = true →
      laziest.shell.aliasLine name cmd =
        str "alias " ++ name ++ str "='lz run " ++ name ++ str "'\n") := by
  refine ⟨fun _ => rfl, by decide, fun r => ?_, fun name cmd h => ?_⟩
  · unfold laziest.binding.Parse
    rw [show laziest.binding.findAll (str "echo \x7b%") = [] from by decide]
    rfl
  · unfold laziest.shell.aliasLine
    rw [if_pos h]

/-- Witness for C10: a command consisting of a lone opening `\x7b%` marker. -/
theorem claimC10_witness :
    laziest.binding.Parse id (str "echo \x7b%") = .ok [] ∧
    laziest.shell.aliasLine (str "e") (str "echo \x7b%") =
      str "alias " ++ str "e" ++ str "='lz run " ++ str "e" ++ str "'\n" :=
  ⟨claimC10.2.2.1 id, claimC10.2.2.2 (str "e") (str "echo \x7b%") (by decide)⟩

/-- Counterexample to claim C5 as stated: the placeholder `\x7b%[a,a]%\x7d`
has a duplicate item, yet parsing succeeds and keeps both copies, so
duplicates are not rejected. -/
theorem claimC5_counterexample :
    laziest.binding.Parse id (str "echo \x7b%[a,a]%\x7d") =
      .ok [{ btype := laziest.binding.BindingValues,
             values := [str "a", str "a"],
             placeholder := str "\x7b%[a,a]%\x7d" }] ∧
    ¬ ([str "a", str "a"] : List Str).Nodup :=
  ⟨rfl, by decide⟩

/-- Claim C5 (amended): value-list parsing rejects empty items (any item
that trims to the empty string is a parse error) but does not reject
duplicates; consequently every binding the parser accepts has no empty
string among its values, while duplicates are preserved. -/
theorem claimC5 :
    (∀ (resolvePath : Str → Str) (ph : Str) (opt : Bool) (flag inner : Str),
      inner ≠ [] → (∃ v ∈ laziest.splitComma inner, laziest.trimSpace v = []) →
      laziest.binding.parseBody resolvePath ph opt flag ('[' :: (inner ++ [']'])) =
        .error (str "value binding contains empty value: " ++ ph)) ∧
    (∀ (resolvePath : Str → Str) (cmd : Str) (bs : List laziest.binding.Binding)
      (b : laziest.binding.Binding),
      laziest.binding.Parse resolvePath cmd = .ok bs → b ∈ bs →
      [] ∉ b.values) := by
  constructor
  · intro r ph opt flag inner hne hex
    unfold laziest.binding.parseBody
    have hpre : laziest.isPrefixB (str "[") ('[' :: (inner ++ [']'])) = true := by
      rw [show str "[" = ['['] from rfl, laziest.binding.isPrefixB_single]
      simp
    have hsuf : laziest.isSuffixB (str "]") ('[' :: (inner ++ [']'])) = true := by
      rw [show str "]" = [']'] from rfl,
        show ('[' :: (inner ++ [']']) : Str) = ('[' :: inner) ++ [']'] from by simp]
      exact laziest.binding.isSuffixB_concat ']' ('[' :: inner)
    rw [hpre, hsuf]
    rw [if_pos (show ((true && true) = true) by decide)]
    rw [show ((('[' :: (inner ++ [']']) : Str)).drop 1).dropLast = inner from by
      simp [List.dropLast_concat]]
    rw [if_neg hne]
    rw [laziest.binding.collectValues_err ?hex2]
    case hex2 =>
      obtain ⟨v, hv, htv⟩ := hex
      exact ⟨laziest.trimSpace v, List.mem_map_of_mem laziest.trimSpace hv, htv⟩
  · intro r cmd bs b hok hb
    obtain ⟨ph, ct, hpc⟩ := laziest.binding.parseEach_mem hok hb
    exact laziest.binding.parseContent_no_empty hpc

/-- Witness for C5 at the placeholder `\x7b%[ ,x]%\x7d` and the command
`echo \x7b%[a,b]%\x7d`. -/
theorem claimC5_witness :
    laziest.binding.parseBody id (str "\x7b%[ ,x]%\x7d") false [] ('[' :: (str " ,x" ++ [']'])) =
      .error (str "value binding contains empty value: " ++ str "\x7b%[ ,x]%\x7d") ∧
    [] ∉ ({ btype := laziest.binding.BindingValues, values := [str "a", str "b"],
            placeholder := str "\x7b%[a,b]%\x7d" } : laziest.binding.Binding).values :=
  ⟨claimC5.1 id (str "\x7b%[ ,x]%\x7d") false [] (str " ,x") (by decide)
      ⟨str " ", by decide, by decide⟩,
   claimC5.2 id (str "echo \x7b%[a,b]%\x7d")
      [{ btype := laziest.binding.BindingValues, values := [str "a", str "b"],
         placeholder := str "\x7b%[a,b]%\x7d" }]
      { btype := laziest.binding.BindingValues, values := [str "a", str "b"],
        placeholder := str "\x7b%[a,b]%\x7d" }
      rfl (by decide)⟩

/-- Claim C6: a placeholder whose content is empty after trimming, whose
value-list body is empty, or whose value list contains an empty item is a
parse error whose message carries the offending placeholder text; and a
command whose bindings fail to parse is never stored by the add
pipeline. -/
theorem claimC6 :
    (∀ (resolvePath : Str → Str) (content ph : Str),
      laziest.trimSpace content = [] →
      laziest.binding.parseContent resolvePath content ph =
        .error (str "empty binding: " ++ ph)) ∧
    (∀ (resolvePath : Str → Str) (ph : Str) (opt : Bool) (flag : Str),
      laziest.binding.parseBody resolvePath ph opt flag (str "[]") =
        .error (str "value binding cannot be empty: " ++ ph)) ∧
    (∀ (resolvePath : Str → Str) (ph : Str) (opt : Bool) (flag inner : Str),
      inner ≠ [] → (∃ v ∈ laziest.splitComma inner, laziest.trimSpace v = []) →
      laziest.binding.parseBody resolvePath ph opt flag ('[' :: (inner ++ [']'])) =
        .error (str "value binding contains empty value: " ++ ph)) ∧
    (∀ (resolvePath : Str → Str) (name cmd : Str)
      (cmds : List laziest.config.SavedCommand) (e : Str),
      laziest.binding.Parse resolvePath (laziest.trimSpace cmd) = .error e →
      ∃ e2, laziest.config.cmdAddRawStore resolvePath name cmd cmds = .error e2) := by
  refine ⟨fun r content ph ht => ?_, fun r ph opt flag => ?_,
    fun r ph opt flag inner hne hex => ?_, fun r name cmd cmds e hp => ?_⟩
  · unfold laziest.binding.parseContent laziest.binding.parsePre
    rw [ht]
    rw [if_pos rfl]
  · unfold laziest.binding.parseBody
    rw [if_pos (show (laziest.isPrefixB (str "[") (str "[]") &&
      laziest.isSuffixB (str "]") (str "[]")) = true from by decide)]
    rw [if_pos (show (((str "[]" : Str).drop 1).dropLast : Str) = [] from rfl)]
  · unfold laziest.binding.parseBody
    have hpre : laziest.isPrefixB (str "[") ('[' :: (inner ++ [']'])) = true := by
      rw [show str "[" = ['['] from rfl, laziest.binding.isPrefixB_single]
      simp
    have hsuf : laziest.isSuffixB (str "]") ('[' :: (inner ++ [']'])) = true := by
      rw [show str "]" = [']'] from rfl,
        show ('[' :: (inner ++ [']']) : Str) = ('[' :: inner) ++ [']'] from by simp]
      exact laziest.binding.isSuffixB_concat ']' ('[' :: inner)
    rw [hpre, hsuf]
    rw [if_pos (show ((true && true) = true) by decide)]
    rw [show ((('[' :: (inner ++ [']']) : Str)).drop 1).dropLast = inner from by
      simp [List.dropLast_concat]]
    rw [if_neg hne]
    rw [laziest.binding.collectValues_err ?hex2]
    case hex2 =>
      obtain ⟨v, hv, htv⟩ := hex
      exact ⟨laziest.trimSpace v, List.mem_map_of_mem laziest.trimSpace hv, htv⟩
  · unfold laziest.config.cmdAddRawStore
    by_cases hn : laziest.config.isValidAliasName name = true
    · by_cases hc : laziest.trimSpace cmd = []
      · exact ⟨str "command cannot be empty",
          by rw [if_neg (by simp [hn]), if_pos hc]⟩
      · refine ⟨e, ?_⟩
        rw [if_neg (by simp [hn]), if_neg hc, hp]
    · have hv : laziest.config.isValidAliasName name = false := by
        simpa using hn
      exact ⟨str "invalid alias name", by rw [if_pos (by simp [hv])]⟩

/-- Witness for C6 at the placeholders `\x7b% %\x7d`, `\x7b%[]%\x7d` and
`\x7b%[ ,x]%\x7d`, and at an add of a command containing `\x7b%[]%\x7d`. -/
theorem claimC6_witness :
    laziest.binding.parseContent id (str " ") (str "\x7b% %\x7d") =
      .error (str "empty binding: " ++ str "\x7b% %\x7d") ∧
    laziest.binding.parseBody id (str "\x7b%[]%\x7d") false [] (str "[]") =
      .error (str "value binding cannot be empty: " ++ str "\x7b%[]%\x7d") ∧
    laziest.binding.parseBody id (str "\x7b%[ ,x]%\x7d") true []
        ('[' :: (str " ,x" ++ [']'])) =
      .error (str "value binding contains empty value: " ++ str "\x7b%[ ,x]%\x7d") ∧
    (∃ e2, laziest.config.cmdAddRawStore id (str "x") (str "echo \x7b%[]%\x7d") [] =
      .error e2) :=
  ⟨claimC6.1 id (str " ") (str "\x7b% %\x7d") (by decide),
   claimC6.2.1 id (str "\x7b%[]%\x7d") false [],
   claimC6.2.2.1 id (str "\x7b%[ ,x]%\x7d") true [] (str " ,x") (by decide)
     ⟨str " ", by decide, by decide⟩,
   claimC6.2.2.2 id (str "x") (str "echo \x7b%[]%\x7d") []
     (str "value binding cannot be empty: " ++ str "\x7b%[]%\x7d") rfl⟩

/-- Counterexample to claim C3 as stated: `Resolve` performs plain first
occurrence substitution with no whitespace collapsing or trimming, so on a
command with a doubled space the result differs from the collapsed and
trimmed string the claim demands. -/
theorem claimC3_counterexample :
    laziest.binding.Parse id (str "x  \x7b%[a,b]%\x7d") =
      .ok [{ btype := laziest.binding.BindingValues,
             values := [str "a", str "b"],
             placeholder := str "\x7b%[a,b]%\x7d" }] ∧
    laziest.binding.Resolve (str "x  \x7b%[a,b]%\x7d")
      { btype := laziest.binding.BindingValues, values := [str "a", str "b"],
        placeholder := str "\x7b%[a,b]%\x7d" } (str "a") = str "x  a" ∧
    laziest.normalizeWs (laziest.replaceFirst (str "x  \x7b%[a,b]%\x7d")
      (str "\x7b%[a,b]%\x7d") (str "a")) = str "x a" ∧
    (str "x  a" : Str) ≠ str "x a" :=
  ⟨rfl, rfl, rfl, by decide⟩

/-- Claim C3 (amended): `Resolve` replaces exactly the first occurrence of
the binding's placeholder with the chosen value, prefixed by the flag and a
single space when the binding carries a flag; the rest of the command is
untouched and no whitespace collapsing or trimming is applied. -/
theorem claimC3 (b : laziest.binding.Binding) (v pre suf : Str)
    (hne : b.placeholder ≠ [])
    (hfirst : ∀ i, i < pre.length →
      laziest.occursAtB b.placeholder (pre ++ b.placeholder ++ suf) i = false) :
    laziest.binding.Resolve (pre ++ b.placeholder ++ suf) b v =
      pre ++ (if b.flag = [] then v else b.flag ++ [' '] ++ v) ++ suf := by
  unfold laziest.binding.Resolve
  by_cases hf : b.flag = []
  · rw [if_pos hf]
    exact laziest.replaceFirst_decomp pre suf b.placeholder v hne hfirst
  · rw [if_neg hf]
    exact laziest.replaceFirst_decomp pre suf b.placeholder _ hne hfirst

/-- Witness for C3: resolving the `\x7b%[a,b]%\x7d` placeholder with the
value `a` in `x \x7b%[a,b]%\x7d y`. -/
theorem claimC3_witness :
    laziest.binding.Resolve (str "x " ++ str "\x7b%[a,b]%\x7d" ++ str " y")
      { btype := laziest.binding.BindingValues, values := [str "a", str "b"],
        placeholder := str "\x7b%[a,b]%\x7d" } (str "a") =
      str "x " ++ str "a" ++ str " y" := by
  have h := claimC3
    { btype := laziest.binding.BindingValues, values := [str "a", str "b"],
      placeholder := str "\x7b%[a,b]%\x7d" }
    (str "a") (str "x ") (str " y") (by decide) (by decide)
  simpa using h

/-- Claim C2 (spec-modelled boolean arm): the parser's binding type is a
tagged union over directory, value-list and boolean-flag bindings, and a
placeholder whose content is only a flag, optionally preceded by `?`,
parses to a boolean-flag binding carrying that flag and the optional
marker, with empty directory and value payloads. -/
theorem claimC2 (resolvePath : Str → Str) (f : Str) (opt : Bool)
    (hf : laziest.binding.isBareFlag f = true) :
    laziest.binding.ParseCur resolvePath
        (str "\x7b%" ++ ((if opt then str "?" else []) ++ f) ++ str "%\x7d") =
      .ok [{ btype := laziest.binding.BindingBooleanFlag, flag := f,
             placeholder :=
               str "\x7b%" ++ ((if opt then str "?" else []) ++ f) ++ str "%\x7d",
             optional := opt }] := by
  have hfne := laziest.binding.bareFlag_ne_nil hf
  have hfns := laziest.binding.bareFlag_noSpace hf
  have hinne : ((if opt then str "?" else []) ++ f : Str) ≠ [] := by
    cases opt <;> simp [hfne]
  have hinns : ∀ c ∈ ((if opt then str "?" else []) ++ f : Str),
      laziest.isGoSpace c = false := by
    intro c hc
    rcases List.mem_append.1 hc with hm | hm
    · cases opt with
      | false => simp at hm
      | true =>
        simp only [if_true, str] at hm
        have : c = '?' := by simpa using hm
        subst this
        decide
    · exact hfns c hm
  have hpct : '%' ∉ ((if opt then str "?" else []) ++ f : Str) := by
    intro hm
    rcases List.mem_append.1 hm with hm2 | hm2
    · cases opt with
      | false => simp at hm2
      | true =>
        simp only [if_true, str] at hm2
        simp at hm2
    · exact laziest.binding.bareFlag_no_pct hf hm2
  rw [laziest.binding.ParseCur_single resolvePath hinne
    (laziest.binding.containsSub_pct_false hpct)
    (laziest.binding.noSpace_no_nl hinns)]
  rw [laziest.binding.parseContentCur_bare resolvePath _ hf opt]

/-- Witness for C2 at the placeholder `\x7b%?--verbose%\x7d`. -/
theorem claimC2_witness :
    laziest.binding.ParseCur id (str "\x7b%" ++ ((if true then str "?" else []) ++
        str "--verbose") ++ str "%\x7d") =
      .ok [{ btype := laziest.binding.BindingBooleanFlag,
             flag := str "--verbose",
             placeholder := str "\x7b%" ++ ((if true then str "?" else []) ++
               str "--verbose") ++ str "%\x7d",
             optional := true }] :=
  claimC2 id (str "--verbose") true (by decide)


/-- Every character of a comma-join of value strings satisfies a property
that holds of the comma and of every character of every value. -/
theorem joinComma_chars (P : Char → Prop) (hcomma : P ',') :
    ∀ vs : List Str, (∀ v ∈ vs, ∀ c ∈ v, P c) →
      ∀ c ∈ laziest.joinComma vs, P c := by
  intro vs
  induction vs with
  | nil =>
    intro _ c hc
    simp [laziest.joinComma] at hc
  | cons v rest ih =>
    intro hv c hc
    cases rest with
    | nil =>
      exact hv v (by simp) c (by simpa [laziest.joinComma] using hc)
    | cons w ws =>
      rw [show laziest.joinComma (v :: w :: ws) =
        v ++ [','] ++ laziest.joinComma (w :: ws) from rfl] at hc
      rcases List.mem_append.1 hc with hm | hm
      · rcases List.mem_append.1 hm with h1 | h1
        · exact hv v (by simp) c h1
        · have : c = ',' := by simpa using h1
          subst this
          exact hcomma
      · exact ih (fun u hu d hd => hv u (by simp [hu]) d hd) c hm

/-- Counterexample to claim C1 as stated: the Builder's directory-binding
emission with an empty base directory (reachable: `extractDirectory`
returns the empty string for a bare filename and the user may accept that
default at the base-directory prompt) produces `\x7b%--config:%\x7d`, which the
Parser rejects, so not every emitted binding string parses back. -/
theorem claimC1_counterexample :
    laziest.builder.buildDirectoryBinding false (str "--config") [] [] =
      str "\x7b%--config:%\x7d" ∧
    laziest.binding.ParseCur id (str "\x7b%--config:%\x7d") =
      .error (str "empty binding after flag: \x7b%--config:%\x7d") :=
  ⟨rfl, rfl⟩

/-- Claim C1 (amended, boolean-flag arm modelled from the spec): every
binding placeholder the Builder emits from well-formed user input (a
dash-word flag token; directory, filter and list items free of whitespace
and of `%`; list items non-empty and comma-free; a non-empty directory not
starting with `[`) parses back to the intended binding: type, values,
optional and custom-input markers, and flag prefix. -/
theorem claimC1 (resolvePath : Str → Str) (f : Str)
    (hf : laziest.binding.isBareFlag f = true)
    (baseDir filter : Str) (hb1 : baseDir ≠ [])
    (hb2 : baseDir.head? ≠ some '[')
    (hb3 : ∀ c ∈ baseDir ++ filter, laziest.isGoSpace c = false ∧ c ≠ '%')
    (vs : List Str) (hvs : vs ≠ [])
    (hv : ∀ v ∈ vs, v ≠ [] ∧
      ∀ c ∈ v, laziest.isGoSpace c = false ∧ c ≠ ',' ∧ c ≠ '%') :
    laziest.binding.ParseCur resolvePath (laziest.builder.emitOptionalBool f) =
      .ok [{ btype := laziest.binding.BindingBooleanFlag, flag := f,
             placeholder := laziest.builder.emitOptionalBool f,
             optional := true }] ∧
    laziest.binding.ParseCur resolvePath (laziest.builder.emitDynamicTF f) =
      .ok [{ btype := laziest.binding.BindingValues,
             values := [str "True", str "False"],
             placeholder := laziest.builder.emitDynamicTF f, flag := f }] ∧
    laziest.binding.ParseCur resolvePath (laziest.builder.emitOptDynamicTF f) =
      .ok [{ btype := laziest.binding.BindingValues,
             values := [str "True", str "False"],
             placeholder := laziest.builder.emitOptDynamicTF f,
             optional := true, flag := f }] ∧
    (∀ opt : Bool, ∃ p fl,
      laziest.binding.ParseCur resolvePath
          (laziest.builder.buildDirectoryBinding opt f baseDir filter) =
        .ok [{ btype := laziest.binding.BindingDirectory, path := p,
               filter := fl,
               placeholder :=
                 laziest.builder.buildDirectoryBinding opt f baseDir filter,
               optional := opt, flag := f }]) ∧
    (∀ opt : Bool,
      laziest.binding.ParseCur resolvePath
          (laziest.builder.buildValueListBinding opt f vs) =
        .ok [{ btype := laziest.binding.BindingValues,
               values := vs.filter (fun v => !(v == str "...")),
               placeholder := laziest.builder.buildValueListBinding opt f vs,
               optional := opt, flag := f,
               allowCustom := vs.any (fun v => v == str "...") }]) := by
  have hfne := laziest.binding.bareFlag_ne_nil hf
  have hfns := laziest.binding.bareFlag_noSpace hf
  have hfpct := laziest.binding.bareFlag_no_pct hf
  refine ⟨?_, ?_, ?_, ?_, ?_⟩
  · -- optional boolean flag
    have h1ns : ∀ c ∈ (str "?" ++ f : Str), laziest.isGoSpace c = false := by
      intro c hc
      rcases List.mem_append.1 hc with hm | hm
      · have h2 : c ∈ ('?' :: ([] : List Char)) := hm
        rcases List.mem_cons.1 h2 with he | he
        · subst he; decide
        · exact absurd he (List.not_mem_nil c)
      · exact hfns c hm
    have h1pct : '%' ∉ (str "?" ++ f : Str) := by
      intro hm
      rcases List.mem_append.1 hm with hm2 | hm2
      · exact absurd hm2 (by decide)
      · exact hfpct hm2
    rw [show laziest.builder.emitOptionalBool f =
      str "\x7b%" ++ (str "?" ++ f) ++ str "%\x7d" from rfl]
    rw [laziest.binding.ParseCur_single resolvePath (by simp [str])
      (laziest.binding.containsSub_pct_false h1pct)
      (laziest.binding.noSpace_no_nl h1ns)]
    have hb := laziest.binding.parseContentCur_bare resolvePath
      (str "\x7b%" ++ (str "?" ++ f) ++ str "%\x7d") hf true
    rw [show ((if (true : Bool) then str "?" else []) ++ f : Str) =
      str "?" ++ f from rfl] at hb
    rw [hb]
  · -- dynamic True/False
    have h2ns : ∀ c ∈ (f ++ ':' :: str "[True,False]" : Str),
        laziest.isGoSpace c = false := by
      intro c hc
      rcases List.mem_append.1 hc with hm | hm
      · exact hfns c hm
      · exact (by decide : ∀ x ∈ (':' :: str "[True,False]" : Str),
          laziest.isGoSpace x = false) c hm
    have h2pct : '%' ∉ (f ++ ':' :: str "[True,False]" : Str) := by
      intro hm
      rcases List.mem_append.1 hm with hm2 | hm2
      · exact hfpct hm2
      · exact absurd hm2 (by decide)
    rw [show laziest.builder.emitDynamicTF f =
      str "\x7b%" ++ (f ++ ':' :: str "[True,False]") ++ str "%\x7d" from by
        unfold laziest.builder.emitDynamicTF
        simp only [List.append_assoc, List.cons_append]
        rfl]
    rw [laziest.binding.ParseCur_single resolvePath (by simp)
      (laziest.binding.containsSub_pct_false h2pct)
      (laziest.binding.noSpace_no_nl h2ns)]
    have hfl := laziest.binding.parseContentCur_flag resolvePath
      (str "\x7b%" ++ (f ++ ':' :: str "[True,False]") ++ str "%\x7d") hf false
      (by decide : (str "[True,False]" : Str) ≠ [])
      (by decide : ∀ c ∈ (str "[True,False]" : Str),
        laziest.isGoSpace c = false)
    rw [show ((if (false : Bool) then str "?" else []) ++
      (f ++ ':' :: str "[True,False]") : Str) =
      f ++ ':' :: str "[True,False]" from rfl] at hfl
    rw [hfl]
    rw [show (str "[True,False]" : Str) =
      '[' :: (laziest.joinComma [str "True", str "False"] ++ [']']) from rfl]
    rw [laziest.binding.parseBody_values resolvePath _ false f (by decide)
      (by decide) (by decide) (by decide)]
    rfl
  · -- optional dynamic True/False
    have h2ns : ∀ c ∈ (f ++ ':' :: str "[True,False]" : Str),
        laziest.isGoSpace c = false := by
      intro c hc
      rcases List.mem_append.1 hc with hm | hm
      · exact hfns c hm
      · exact (by decide : ∀ x ∈ (':' :: str "[True,False]" : Str),
          laziest.isGoSpace x = false) c hm
    have h3ns : ∀ c ∈ ('?' :: (f ++ ':' :: str "[True,False]") : Str),
        laziest.isGoSpace c = false := by
      intro c hc
      rcases List.mem_cons.1 hc with he | he
      · subst he; decide
      · exact h2ns c he
    have h3pct : '%' ∉ ('?' :: (f ++ ':' :: str "[True,False]") : Str) := by
      intro hm
      rcases List.mem_cons.1 hm with he | he
      · exact absurd he (by decide)
      · rcases List.mem_append.1 he with hm2 | hm2
        · exact hfpct hm2
        · exact absurd hm2 (by decide)
    rw [show laziest.builder.emitOptDynamicTF f =
      str "\x7b%" ++ ('?' :: (f ++ ':' :: str "[True,False]")) ++ str "%\x7d" from by
        unfold laziest.builder.emitOptDynamicTF
        simp only [List.append_assoc, List.cons_append]
        rfl]
    rw [laziest.binding.ParseCur_single resolvePath (by simp)
      (laziest.binding.containsSub_pct_false h3pct)
      (laziest.binding.noSpace_no_nl h3ns)]
    have hfl := laziest.binding.parseContentCur_flag resolvePath
      (str "\x7b%" ++ ('?' :: (f ++ ':' :: str "[True,False]")) ++ str "%\x7d") hf
      true
      (by decide : (str "[True,False]" : Str) ≠ [])
      (by decide : ∀ c ∈ (str "[True,False]" : Str),
        laziest.isGoSpace c = false)
    rw [show ((if (true : Bool) then str "?" else []) ++
      (f ++ ':' :: str "[True,False]") : Str) =
      '?' :: (f ++ ':' :: str "[True,False]") from rfl] at hfl
    rw [hfl]
    rw [show (str "[True,False]" : Str) =
      '[' :: (laziest.joinComma [str "True", str "False"] ++ [']']) from rfl]
    rw [laziest.binding.parseBody_values resolvePath _ true f (by decide)
      (by decide) (by decide) (by decide)]
    rfl
  · -- directory binding
    intro opt
    set dirBody : Str :=
      baseDir ++ (if filter ≠ [] then ':' :: filter else []) with hdb
    have hdbne : dirBody ≠ [] := by
      rw [hdb]
      cases baseDir with
      | nil => exact absurd rfl hb1
      | cons c bd => simp
    have hdbns : ∀ c ∈ dirBody, laziest.isGoSpace c = false := by
      intro c hc
      rw [hdb] at hc
      rcases List.mem_append.1 hc with hm | hm
      · exact (hb3 c (List.mem_append.2 (Or.inl hm))).1
      · by_cases hfe : filter ≠ []
        · rw [if_pos hfe] at hm
          rcases List.mem_cons.1 hm with he | he
          · subst he; decide
          · exact (hb3 c (List.mem_append.2 (Or.inr he))).1
        · rw [if_neg hfe] at hm
          simp at hm
    have hinns : ∀ c ∈ (f ++ ':' :: dirBody : Str),
        laziest.isGoSpace c = false := by
      intro c hc
      rcases List.mem_append.1 hc with hm | hm
      · exact hfns c hm
      · rcases List.mem_cons.1 hm with he | he
        · subst he; decide
        · exact hdbns c he
    have hoptns : ∀ c ∈ ((if opt then str "?" else []) ++
        (f ++ ':' :: dirBody) : Str), laziest.isGoSpace c = false := by
      intro c hc
      rcases List.mem_append.1 hc with hm | hm
      · cases opt with
        | false => simp at hm
        | true =>
          have h2 : c ∈ ('?' :: ([] : List Char)) := hm
          rcases List.mem_cons.1 h2 with he | he
          · subst he; decide
          · exact absurd he (List.not_mem_nil c)
      · exact hinns c hm
    have hoptpct : '%' ∉ ((if opt then str "?" else []) ++
        (f ++ ':' :: dirBody) : Str) := by
      intro hm
      rcases List.mem_append.1 hm with hm2 | hm2
      · cases opt with
        | false => simp at hm2
        | true => exact absurd hm2 (by decide)
      · rcases List.mem_append.1 hm2 with hm3 | hm3
        · exact hfpct hm3
        · rcases List.mem_cons.1 hm3 with he | he
          · exact absurd he (by decide)
          · rw [hdb] at he
            rcases List.mem_append.1 he with hm4 | hm4
            · exact (hb3 '%' (List.mem_append.2 (Or.inl hm4))).2 rfl
            · by_cases hfe : filter ≠ []
              · rw [if_pos hfe] at hm4
                rcases List.mem_cons.1 hm4 with he2 | he2
                · exact absurd he2 (by decide)
                · exact (hb3 '%' (List.mem_append.2 (Or.inr he2))).2 rfl
              · rw [if_neg hfe] at hm4
                simp at hm4
    have hnb : (laziest.isPrefixB (str "[") dirBody &&
        laziest.isSuffixB (str "]") dirBody) = false := by
      rw [hdb]
      cases baseDir with
      | nil => exact absurd rfl hb1
      | cons c bd =>
        have hc2 : c ≠ '[' := by
          intro he
          exact hb2 (by simp [he])
        rw [show ((c :: bd : Str) ++
          (if filter ≠ [] then ':' :: filter else [])) =
          c :: (bd ++ (if filter ≠ [] then ':' :: filter else [])) from rfl]
        rw [show str "[" = ['['] from rfl, laziest.binding.isPrefixB_single]
        simp [Ne.symm hc2]
    obtain ⟨p, fl, hpb⟩ := laziest.binding.parseBody_dir resolvePath
      (str "\x7b%" ++ ((if opt then str "?" else []) ++ (f ++ ':' :: dirBody)) ++
        str "%\x7d") opt f dirBody hnb
    refine ⟨p, fl, ?_⟩
    rw [show laziest.builder.buildDirectoryBinding opt f baseDir filter =
      str "\x7b%" ++ ((if opt then str "?" else []) ++ (f ++ ':' :: dirBody)) ++
        str "%\x7d" from by
        rw [hdb]
        unfold laziest.builder.buildDirectoryBinding
        cases opt <;> simp only [List.append_assoc, List.cons_append] <;> rfl]
    rw [laziest.binding.ParseCur_single resolvePath
      (by cases opt <;> simp [str])
      (laziest.binding.containsSub_pct_false hoptpct)
      (laziest.binding.noSpace_no_nl hoptns)]
    rw [laziest.binding.parseContentCur_flag resolvePath _ hf opt hdbne hdbns]
    rw [hpb]
  · -- value list
    intro opt
    have hv1 : ∀ v ∈ vs, v ≠ [] := fun v hm => (hv v hm).1
    have hv2 : ∀ v ∈ vs, ∀ c ∈ v, c ≠ ',' := fun v hm c hc =>
      ((hv v hm).2 c hc).2.1
    have hv3 : ∀ v ∈ vs, laziest.trimSpace v = v := fun v hm =>
      laziest.trimSpace_of_noSpace (fun c hc => ((hv v hm).2 c hc).1)
    have hjall : ∀ c ∈ laziest.joinComma vs,
        laziest.isGoSpace c = false ∧ c ≠ '%' :=
      joinComma_chars (fun c => laziest.isGoSpace c = false ∧ c ≠ '%')
        (by decide) vs
        (fun v hm c hc => ⟨((hv v hm).2 c hc).1, ((hv v hm).2 c hc).2.2⟩)
    set body : Str := '[' :: (laziest.joinComma vs ++ [']']) with hbody
    have hbne : body ≠ [] := by
      rw [hbody]; simp
    have hbns : ∀ c ∈ body, laziest.isGoSpace c = false := by
      intro c hc
      rw [hbody] at hc
      rcases List.mem_cons.1 hc with he | he
      · subst he; decide
      · rcases List.mem_append.1 he with hm | hm
        · exact (hjall c hm).1
        · have h2 : c ∈ (']' :: ([] : List Char)) := hm
          rcases List.mem_cons.1 h2 with he2 | he2
          · subst he2; decide
          · exact absurd he2 (List.not_mem_nil c)
    have hinns : ∀ c ∈ ((if opt then str "?" else []) ++
        (f ++ ':' :: body) : Str), laziest.isGoSpace c = false := by
      intro c hc
      rcases List.mem_append.1 hc with hm | hm
      · cases opt with
        | false => simp at hm
        | true =>
          have h2 : c ∈ ('?' :: ([] : List Char)) := hm
          rcases List.mem_cons.1 h2 with he | he
          · subst he; decide
          · exact absurd he (List.not_mem_nil c)
      · rcases List.mem_append.1 hm with hm2 | hm2
        · exact hfns c hm2
        · rcases List.mem_cons.1 hm2 with he | he
          · subst he; decide
          · exact hbns c he
    have hinpct : '%' ∉ ((if opt then str "?" else []) ++
        (f ++ ':' :: body) : Str) := by
      intro hm
      rcases List.mem_append.1 hm with hm2 | hm2
      · cases opt with
        | false => simp at hm2
        | true => exact absurd hm2 (by decide)
      · rcases List.mem_append.1 hm2 with hm3 | hm3
        · exact hfpct hm3
        · rcases List.mem_cons.1 hm3 with he | he
          · exact absurd he (by decide)
          · rw [hbody] at he
            rcases List.mem_cons.1 he with he2 | he2
            · exact absurd he2 (by decide)
            · rcases List.mem_append.1 he2 with hm4 | hm4
              · exact (hjall '%' hm4).2 rfl
              · exact absurd hm4 (by decide)
    rw [show laziest.builder.buildValueListBinding opt f vs =
      str "\x7b%" ++ ((if opt then str "?" else []) ++ (f ++ ':' :: body)) ++
        str "%\x7d" from by
        rw [hbody]
        unfold laziest.builder.buildValueListBinding
        cases opt <;> simp only [List.append_assoc, List.cons_append] <;> rfl]
    rw [laziest.binding.ParseCur_single resolvePath
      (by cases opt <;> simp [str])
      (laziest.binding.containsSub_pct_false hinpct)
      (laziest.binding.noSpace_no_nl hinns)]
    rw [laziest.binding.parseContentCur_flag resolvePath _ hf opt hbne hbns]
    rw [hbody]
    rw [laziest.binding.parseBody_values resolvePath _ opt f hvs hv1 hv2 hv3]

/-- Witness for C1: the amended round-trip theorem applied to the flag
`--env`, base directory `/configs` with filter `*.yaml`, and the value
list `dev`, `...` (the custom-input marker). -/
theorem claimC1_witness :
    laziest.binding.ParseCur id
        (laziest.builder.buildValueListBinding true (str "--env")
          [str "dev", str "..."]) =
      .ok [{ btype := laziest.binding.BindingValues,
             values := [str "dev"],
             placeholder := laziest.builder.buildValueListBinding true
               (str "--env") [str "dev", str "..."],
             optional := true, flag := str "--env", allowCustom := true }] ∧
    (∃ p fl, laziest.binding.ParseCur id
        (laziest.builder.buildDirectoryBinding false (str "--env")
          (str "/configs") (str "*.yaml")) =
      .ok [{ btype := laziest.binding.BindingDirectory, path := p,
             filter := fl,
             placeholder := laziest.builder.buildDirectoryBinding false
               (str "--env") (str "/configs") (str "*.yaml"),
             flag := str "--env" }]) ∧
    laziest.binding.ParseCur id
        (laziest.builder.emitOptionalBool (str "--env")) =
      .ok [{ btype := laziest.binding.BindingBooleanFlag, flag := str "--env",
             placeholder := laziest.builder.emitOptionalBool (str "--env"),
             optional := true }] := by
  have h := claimC1 id (str "--env") (by decide) (str "/configs")
    (str "*.yaml") (by decide) (by decide) (by decide)
    [str "dev", str "..."] (by decide) (by decide)
  exact ⟨h.2.2.2.2 true, h.2.2.2.1 false, h.1⟩

/-- Claim C4: `RemoveWithFlag` on a command whose flag textually precedes
the placeholder as `flag[=| ]placeholder` (and whose flag occurs nowhere
earlier) deletes the flag token and the placeholder; with no flag (or no
such adjacency) it deletes the first occurrence of the placeholder alone;
in both cases whitespace runs collapse to single spaces and the result has
no leading or trailing space character. -/
theorem claimC4 :
    (∀ (b : laziest.binding.Binding) (pre sep p2 suf : Str),
      b.flag ≠ [] → b.placeholder = '{' :: p2 →
      (sep = str " " ∨ sep = str "=") →
      laziest.containsSub b.placeholder suf = false →
      (∀ i, i < pre.length → laziest.isPrefixB b.flag
        ((pre ++ b.flag ++ sep ++ b.placeholder ++ suf).drop i) = false) →
      laziest.binding.RemoveWithFlag
          (pre ++ b.flag ++ sep ++ b.placeholder ++ suf) b =
        laziest.normalizeWs (pre ++ suf)) ∧
    (∀ (b : laziest.binding.Binding) (pre suf : Str),
      b.placeholder ≠ [] →
      (b.flag = [] ∨ laziest.binding.containsPat b.flag b.placeholder
        (pre ++ b.placeholder ++ suf) = false) →
      (∀ i, i < pre.length →
        laziest.occursAtB b.placeholder (pre ++ b.placeholder ++ suf) i =
          false) →
      laziest.binding.RemoveWithFlag (pre ++ b.placeholder ++ suf) b =
        laziest.normalizeWs (pre ++ suf)) ∧
    (∀ (command : Str) (b : laziest.binding.Binding) (c : Char),
      ((laziest.binding.RemoveWithFlag command b).head? = some c →
        laziest.isGoSpace c = false) ∧
      ((laziest.binding.RemoveWithFlag command b).getLast? = some c →
        laziest.isGoSpace c = false)) := by
  refine ⟨?_, ?_, ?_⟩
  · -- flag adjacent: flag and placeholder both removed
    intro b pre sep p2 suf hfne hph hsep hsuf hocc
    have hbfe : b.flag.isEmpty = false := by
      cases hfl : b.flag with
      | nil => exact absurd hfl hfne
      | cons c l => rfl
    have htry : (laziest.binding.tryPat b.flag b.placeholder
        (b.flag ++ sep ++ b.placeholder ++ suf)).isSome = true := by
      rw [laziest.binding.tryPat_hit b.flag p2 suf hph hsep]
      rfl
    have hcond : (!b.flag.isEmpty && laziest.binding.containsPat b.flag
        b.placeholder (pre ++ b.flag ++ sep ++ b.placeholder ++ suf)) =
        true := by
      have hcp := laziest.binding.containsPat_append htry pre
      simp only [← List.append_assoc] at hcp
      rw [hbfe, hcp]
      rfl
    have hfuel : pre.length + 1 ≤
        (pre ++ b.flag ++ sep ++ b.placeholder ++ suf).length := by
      have h0 : 0 < b.flag.length := List.length_pos.2 hfne
      simp [List.length_append]
      omega
    unfold laziest.binding.RemoveWithFlag
    rw [if_pos hcond]
    unfold laziest.binding.removeAllPat
    rw [laziest.binding.removeAllAux_decomp p2 hph hsep hsuf pre
      ((pre ++ b.flag ++ sep ++ b.placeholder ++ suf).length) hfuel hocc]
  · -- no adjacent flag: only the placeholder is removed
    intro b pre suf hpne hno hocc
    have hcond : (!b.flag.isEmpty && laziest.binding.containsPat b.flag
        b.placeholder (pre ++ b.placeholder ++ suf)) = false := by
      rcases hno with hf | hcp
      · rw [hf]
        rfl
      · rw [hcp]
        simp
    unfold laziest.binding.RemoveWithFlag
    simp only [hcond, Bool.false_eq_true, if_false]
    rw [laziest.replaceFirst_decomp pre suf b.placeholder [] hpne hocc]
    simp
  · -- the result never starts or ends with whitespace
    intro command b c
    constructor
    · intro h
      unfold laziest.binding.RemoveWithFlag at h
      by_cases hc : (!b.flag.isEmpty && laziest.binding.containsPat b.flag
          b.placeholder command) = true
      · rw [if_pos hc] at h
        exact laziest.normalizeWs_head h
      · rw [if_neg hc] at h
        exact laziest.normalizeWs_head h
    · intro h
      unfold laziest.binding.RemoveWithFlag at h
      by_cases hc : (!b.flag.isEmpty && laziest.binding.containsPat b.flag
          b.placeholder command) = true
      · rw [if_pos hc] at h
        exact laziest.normalizeWs_getLast h
      · rw [if_neg hc] at h
        exact laziest.normalizeWs_getLast h

/-- Witness for C4: removing the skipped optional binding
`\x7b%?--debug:[True,False]%\x7d` from `run --debug \x7b%?--debug:[True,False]%\x7d now`
deletes the adjacent `--debug` too and yields `run now`; removing a
flagless placeholder deletes just the placeholder; results never start
with whitespace. -/
theorem claimC4_witness :
    laziest.binding.RemoveWithFlag
        (str "run --debug \x7b%?--debug:[True,False]%\x7d now")
        { btype := laziest.binding.BindingValues, flag := str "--debug",
          placeholder := str "\x7b%?--debug:[True,False]%\x7d" } =
      str "run now" ∧
    laziest.binding.RemoveWithFlag (str "echo \x7b%[a,b]%\x7d x")
        { btype := laziest.binding.BindingValues,
          placeholder := str "\x7b%[a,b]%\x7d" } =
      str "echo x" ∧
    laziest.isGoSpace 'e' = false := by
  refine ⟨?_, ?_, ?_⟩
  · exact claimC4.1
      { btype := laziest.binding.BindingValues, flag := str "--debug",
        placeholder := str "\x7b%?--debug:[True,False]%\x7d" }
      (str "run ") (str " ") (str "%?--debug:[True,False]%\x7d") (str " now")
      (by decide) rfl (Or.inl rfl) (by decide) (by decide)
  · exact claimC4.2.1
      { btype := laziest.binding.BindingValues,
        placeholder := str "\x7b%[a,b]%\x7d" }
      (str "echo ") (str " x") (by decide) (Or.inl rfl) (by decide)
  · exact (claimC4.2.2 (str " e ")
      { btype := laziest.binding.BindingValues, placeholder := [] } 'e').1
      (by decide)

/-- Counterexample to claim C9 as stated: `PickString` with zero items but
custom input allowed does not return Cancel on a non-terminal stream — it
routes to the input prompt's failure path and, for an optional binding,
returns Skip (with a stderr message), not Cancel. -/
theorem claimC9_counterexample :
    laziest.picker.PickString
        (fun _ _ => { action := laziest.picker.PickAction.ActionSelect }) []
        true true { isTerminal := false } =
      ({ action := laziest.picker.PickAction.ActionSkip },
       { stderr := [str "Cannot show input prompt: not a terminal"] }) ∧
    laziest.picker.PickAction.ActionSkip ≠
      laziest.picker.PickAction.ActionCancel :=
  ⟨rfl, by decide⟩

/-- Claim C9 (amended): zero items give an immediate Cancel with no raw
mode and no stderr, except that `PickString` with custom input allowed
routes zero items to the input prompt, whose non-terminal failure yields
Skip (optional) or Cancel with a stderr message; with items, a
non-terminal stream gives an immediate Cancel whose only side effect is
the failure message — raw mode is never entered. -/
theorem claimC9 :
    (∀ (loop : laziest.picker.TermEnv → laziest.picker.PickResult)
        (env : laziest.picker.TermEnv),
      laziest.picker.Pick loop [] env =
        ({ action := laziest.picker.PickAction.ActionCancel }, {})) ∧
    (∀ (loopS : List Str → laziest.picker.TermEnv →
        laziest.picker.PickResult) (opt : Bool)
        (env : laziest.picker.TermEnv),
      laziest.picker.PickString loopS [] opt false env =
        ({ action := laziest.picker.PickAction.ActionCancel }, {})) ∧
    (∀ (loop : laziest.picker.TermEnv → laziest.picker.PickResult)
        (items : List (Str × Str)) (env : laziest.picker.TermEnv),
      items ≠ [] → env.isTerminal = false →
      laziest.picker.Pick loop items env =
        ({ action := laziest.picker.PickAction.ActionCancel },
         { stderr := [str "Cannot show interactive picker: not a terminal"] })) ∧
    (∀ (loopS : List Str → laziest.picker.TermEnv →
        laziest.picker.PickResult) (items : List Str)
        (opt cust : Bool) (env : laziest.picker.TermEnv),
      items ≠ [] → env.isTerminal = false →
      laziest.picker.PickString loopS items opt cust env =
        ({ action := laziest.picker.PickAction.ActionCancel },
         { stderr := [str "Cannot show interactive picker: not a terminal"] })) ∧
    (∀ (loopS : List Str → laziest.picker.TermEnv →
        laziest.picker.PickResult) (opt : Bool)
        (env : laziest.picker.TermEnv),
      env.isTerminal = false →
      laziest.picker.PickString loopS [] opt true env =
        ((if opt then { action := laziest.picker.PickAction.ActionSkip }
          else { action := laziest.picker.PickAction.ActionCancel }),
         { stderr := [str "Cannot show input prompt: not a terminal"] })) := by
  refine ⟨?_, ?_, ?_, ?_, ?_⟩
  · intro loop env
    rfl
  · intro loopS opt env
    rfl
  · intro loop items env hne hterm
    obtain ⟨t, r, k⟩ := env
    have ht : t = false := hterm
    subst ht
    unfold laziest.picker.Pick
    rw [if_neg (fun h => hne (List.length_eq_zero.1 h))]
    rfl
  · intro loopS items opt cust env hne hterm
    obtain ⟨t, r, k⟩ := env
    have ht : t = false := hterm
    subst ht
    unfold laziest.picker.PickString
    rw [if_neg (by
      intro h
      simp only [Bool.and_eq_true, decide_eq_true_eq] at h
      exact hne (List.length_eq_zero.1 h.2))]
    rw [if_neg (fun h => hne (List.length_eq_zero.1 h))]
    rfl
  · intro loopS opt env hterm
    obtain ⟨t, r, k⟩ := env
    have ht : t = false := hterm
    subst ht
    cases opt <;> rfl

/-- Witness for C9: a singleton `Pick`, a singleton `PickString` and a
zero-item custom-input `PickString` against a non-terminal stream, each
returning the amended theorem's result. -/
theorem claimC9_witness :
    laziest.picker.Pick
        (fun _ => { action := laziest.picker.PickAction.ActionSelect })
        [(str "a", str "b")] { isTerminal := false } =
      ({ action := laziest.picker.PickAction.ActionCancel },
       { stderr := [str "Cannot show interactive picker: not a terminal"] }) ∧
    laziest.picker.PickString
        (fun _ _ => { action := laziest.picker.PickAction.ActionSelect })
        [str "x"] true true { isTerminal := false } =
      ({ action := laziest.picker.PickAction.ActionCancel },
       { stderr := [str "Cannot show interactive picker: not a terminal"] }) ∧
    laziest.picker.PickString
        (fun _ _ => { action := laziest.picker.PickAction.ActionSelect })
        [] false true { isTerminal := false } =
      ({ action := laziest.picker.PickAction.ActionCancel },
       { stderr := [str "Cannot show input prompt: not a terminal"] }) := by
  have h := claimC9
  refine ⟨h.2.2.1 _ [(str "a", str "b")] _ (by decide) rfl,
    h.2.2.2.1 _ [str "x"] true true _ (by decide) rfl, ?_⟩
  exact h.2.2.2.2
    (fun _ _ => { action := laziest.picker.PickAction.ActionSelect }) false
    { isTerminal := false } rfl
